import Mathlib

/-!
Verification of the nado differential tester core against its design
specification.  The Rust sources (`src/generator.rs`, `src/engine.rs`,
`src/runner.rs`, `src/config.rs`) are shallowly embedded below: `i64`
becomes `Int` (with explicit saturation at the `i64` bounds where the code
saturates), `usize` becomes `Nat` (with explicit saturation at `2^64 - 1`
where the code uses `saturating_mul`), `f64` ratios become `ℚ`, fallible
functions return `Except String`, and `String` data processed by the
normalizer is modelled as `List Char`.
-/

namespace Nado

/-! ### Generator data model (src/generator.rs, src/config.rs) -/

/-- Embeds `ParsedInput` from src/generator.rs: the closed integer
interval `[min, max]` derived from one input spec. -/
structure ParsedInput where
  min : Int
  max : Int
deriving DecidableEq, Repr

/-- Embeds `Pbt` from src/config.rs.  The `f64` ratios are modelled as
rationals. -/
structure Pbt where
  enabled : Bool
  edge_case_ratio : ℚ
  partition_ratio : ℚ
  max_cartesian_cases : Nat

/-- Smallest `i64` value. -/
def i64Min : Int := -(2 ^ 63)

/-- Largest `i64` value. -/
def i64Max : Int := 2 ^ 63 - 1

/-- Largest `usize` value (the code targets 64-bit hosts). -/
def usizeMax : Nat := 2 ^ 64 - 1

/-- Embeds `i64::saturating_add(1)` as used by `edge_values`. -/
def satAddOne (x : Int) : Int := min (x + 1) i64Max

/-- Embeds `i64::saturating_sub(1)` as used by `edge_values`. -/
def satSubOne (x : Int) : Int := max (x - 1) i64Min

/-- Embeds `interpolate` from src/generator.rs.  The Rust code widens to
`i128`, where the arithmetic on `i64` inputs is exact, so the unbounded
`Int` computation agrees with it; `i128` division truncates toward zero,
which is `Int.tdiv`. -/
def interpolate (lo hi num den : Int) : Int := lo + ((hi - lo) * num).tdiv den

/-- Embeds `midpoint` from src/generator.rs. -/
def midpoint (lo hi : Int) : Int := interpolate lo hi 1 2

/-- Insert into a strictly ascending list, keeping it sorted and
duplicate-free.  Together with `sortedSet` this models `BTreeSet<i64>`
(iteration in ascending order, duplicates collapsed). -/
def sortedInsert (x : Int) : List Int → List Int
  | [] => [x]
  | y :: ys => if x < y then x :: y :: ys else if x = y then y :: ys else y :: sortedInsert x ys

/-- Collect a list into the model of a `BTreeSet<i64>`. -/
def sortedSet (l : List Int) : List Int := l.foldl (fun acc x => sortedInsert x acc) []

/-- Embeds `edge_values` from src/generator.rs: candidate edge values
filtered to the interval, as the sorted deduplicated list a `BTreeSet`
yields. -/
def edge_values (spec : ParsedInput) : List Int :=
  sortedSet (([spec.min, satAddOne spec.min, satSubOne spec.max, spec.max, 0, 1, -1]).filter
    (fun c => decide (spec.min ≤ c ∧ c ≤ spec.max)))

/-- Embeds `partition_points` from src/generator.rs. -/
def partition_points (spec : ParsedInput) : List Int :=
  sortedSet ([spec.min, interpolate spec.min spec.max 1 4, midpoint spec.min spec.max,
      interpolate spec.min spec.max 3 4, spec.max] ++
    (if spec.min ≤ 0 ∧ 0 ≤ spec.max then [0] else []))

/-- Embeds `push_unique` from src/generator.rs: append `values` unless the
budget is already met or an equal tuple is present. -/
def push_unique (out : List (List Int)) (values : List Int) (budget : Nat) : List (List Int) :=
  if budget ≤ out.length then out
  else if values ∈ out then out else out ++ [values]

/-- Embeds the `alt_min_max` tuple construction of `extend_edge_cases`. -/
def altMinMax (specs : List ParsedInput) : List Int :=
  specs.enum.map (fun p => if p.1 % 2 = 0 then p.2.min else p.2.max)

/-- Embeds the `alt_max_min` tuple construction of `extend_edge_cases`. -/
def altMaxMin (specs : List ParsedInput) : List Int :=
  specs.enum.map (fun p => if p.1 % 2 = 0 then p.2.max else p.2.min)

/-- Embeds the inner loop of the single-field edge sweep of
`extend_edge_cases`: push `mids` with position `idx` replaced by each edge
value, reporting `true` when the budget check fired the early `return`. -/
def edgeSinglesInner (mids : List Int) (idx : Nat) (budget : Nat) :
    List Int → List (List Int) → List (List Int) × Bool
  | [], out => (out, false)
  | e :: es, out =>
    let out' := push_unique out (mids.set idx e) budget
    if budget ≤ out'.length then (out', true)
    else edgeSinglesInner mids idx budget es out'

/-- Embeds the outer loop of the single-field edge sweep of
`extend_edge_cases`. -/
def edgeSingles (mids : List Int) (budget : Nat) :
    List (Nat × ParsedInput) → List (List Int) → List (List Int) × Bool
  | [], out => (out, false)
  | (idx, spec) :: rest, out =>
    match edgeSinglesInner mids idx budget (edge_values spec) out with
    | (out', true) => (out', true)
    | (out', false) => edgeSingles mids budget rest out'

/-- Embeds `cartesian_collect` from src/generator.rs: depth-first
enumeration of the Cartesian product of the per-field edge-value sets in
lexicographic order, budget-guarded.  The explicit `depth`/`stack` of the
Rust code becomes recursion over the remaining `sets`. -/
def cartesian_collect (budget : Nat) : List (List Int) → List Int → List (List Int) → List (List Int)
  | [], stack, out => if budget ≤ out.length then out else push_unique out stack budget
  | es :: rest, stack, out =>
    if budget ≤ out.length then out
    else es.foldl
      (fun o v => if budget ≤ o.length then o else cartesian_collect budget rest (stack ++ [v]) o)
      out

/-- Embeds `extend_edge_cases` from src/generator.rs. -/
def extend_edge_cases (out : List (List Int)) (specs : List ParsedInput) (budget : Nat)
    (max_cartesian_cases : Nat) : List (List Int) :=
  if budget = 0 ∨ specs = [] then out
  else
    let mids := specs.map fun s => midpoint s.min s.max
    let out1 := push_unique out mids budget
    let out2 := push_unique out1 (specs.map fun s => s.min) budget
    let out3 := push_unique out2 (specs.map fun s => s.max) budget
    let out4 := push_unique out3 (altMinMax specs) budget
    let out5 := push_unique out4 (altMaxMin specs) budget
    match edgeSingles mids budget specs.enum out5 with
    | (out6, true) => out6
    | (out6, false) =>
      let edge_sets := specs.map edge_values
      let total := edge_sets.foldl (fun acc s => min (acc * s.length) usizeMax) 1
      if total = 0 ∨ max_cartesian_cases < total then out6
      else cartesian_collect budget edge_sets [] out6

/-- Embeds the tuple the partition cursor emits: field `i` takes
`partition_points(spec_i)[(cursor + i) % len]`.  The Rust index is total
because `partition_points` is never empty; `getD` with default `0` models
it. -/
def tupleAt (pvals : List (List Int)) (cursor : Nat) : List Int :=
  pvals.enum.map fun p => p.2.getD ((cursor + p.1) % p.2.length) 0

/-- Embeds the `while` loop of `extend_partition_cases`: push the cursor
tuple while the list is below budget, stopping once the cursor passes
`4 * budget`.  The `fuel` argument only makes the recursion structural;
the loop breaks by itself once `cursor` reaches `4 * budget`, so with the
initial fuel `4 * budget + 1` supplied by `extend_partition_cases` the
fuel never runs out (see `partitionGo_eq_fold` below, which characterizes
the loop without mentioning fuel). -/
def partitionGo (pvals : List (List Int)) (budget : Nat) :
    Nat → Nat → List (List Int) → List (List Int)
  | 0, _, out => out
  | fuel + 1, cursor, out =>
    if out.length < budget then
      let out' := push_unique out (tupleAt pvals cursor) budget
      if budget * 4 < cursor + 1 then out'
      else partitionGo pvals budget fuel (cursor + 1) out'
    else out

/-- Embeds `extend_partition_cases` from src/generator.rs. -/
def extend_partition_cases (out : List (List Int)) (specs : List ParsedInput)
    (budget : Nat) : List (List Int) :=
  if budget = 0 ∨ specs = [] then out
  else partitionGo (specs.map partition_points) budget (budget * 4 + 1) 0 out

/-- Modelled from the spec: the random phase draws each field "uniformly
from its closed interval" with a stream that "MUST be deterministic in
`seed` alone".  The concrete generator in the code is the external
proptest ChaCha runner (not part of this repository), so the stream is
modelled by a 64-bit linear congruential generator; only determinism and
membership in `[lo, hi]` are relied upon, matching the spec's note that
exact values need not match the reference. -/
def rngNext (s : Nat) : Nat := (6364136223846793005 * s + 1442695040888963407) % 2 ^ 64

/-- Modelled from the spec: one uniform draw from `[lo, hi]` out of the
raw 64-bit state. -/
def drawValue (s : Nat) (lo hi : Int) : Int := lo + ((s % (hi + 1 - lo).toNat : Nat) : Int)

/-- Embeds the per-case field loop of `generate_random_cases`: one value
pushed per spec in order, threading the generator state. -/
def drawTuple : List ParsedInput → Nat → List Int × Nat
  | [], s => ([], s)
  | spec :: rest, s =>
    let s' := rngNext s
    let p := drawTuple rest s'
    (drawValue s' spec.min spec.max :: p.1, p.2)

/-- Embeds the case loop of `generate_random_cases`. -/
def randomGo (specs : List ParsedInput) : Nat → Nat → List (List Int)
  | 0, _ => []
  | n + 1, s =>
    let p := drawTuple specs s
    p.1 :: randomGo specs n p.2

/-- Embeds `generate_random_cases` from src/generator.rs (with the
spec-modelled random stream; the strategy-construction error path of the
library cannot fire in the model, so the function is total). -/
def generate_random_cases (specs : List ParsedInput) (count : Nat) (seed : Nat) :
    List (List Int) :=
  randomGo specs count seed

/-- Embeds `validate_pbt_config` from src/generator.rs.  Rust's
`(0.0..=1.0).contains(&r)` is `0 ≤ r ∧ r ≤ 1`. -/
def validate_pbt_config (pbt : Pbt) : Except String Unit :=
  if ¬ (0 ≤ pbt.edge_case_ratio ∧ pbt.edge_case_ratio ≤ 1) then
    Except.error "pbt.edge_case_ratio must be between 0.0 and 1.0"
  else if ¬ (0 ≤ pbt.partition_ratio ∧ pbt.partition_ratio ≤ 1) then
    Except.error "pbt.partition_ratio must be between 0.0 and 1.0"
  else if 1 < pbt.edge_case_ratio + pbt.partition_ratio then
    Except.error "pbt.edge_case_ratio + pbt.partition_ratio must be <= 1.0"
  else if pbt.max_cartesian_cases = 0 then
    Except.error "pbt.max_cartesian_cases must be > 0"
  else Except.ok ()

/-- Embeds `((cases as f64) * ratio).round() as usize`.  For the
non-negative ratios that reach this computation, Rust's round half away
from zero is `⌊cases * r + 1/2⌋`, computed here exactly on the rational's
numerator and denominator with floor division. -/
def budgetOf (cases : Nat) (r : ℚ) : Nat :=
  ((2 * (cases : Int) * r.num + r.den).fdiv (2 * r.den)).toNat

/-- Embeds the seeded (edge + partition) portion of `generate_inputs`,
before truncation: empty when PBT is disabled. -/
def seeded_tuples (specs : List ParsedInput) (cases : Nat) (pbt : Pbt) : List (List Int) :=
  if pbt.enabled then
    extend_partition_cases
      (extend_edge_cases [] specs (budgetOf cases pbt.edge_case_ratio) pbt.max_cartesian_cases)
      specs (budgetOf cases pbt.partition_ratio)
  else []

/-- Embeds `generate_inputs` from src/generator.rs at the tuple level
(before `format_case`): validate the PBT configuration when enabled, build
the seeded cases, truncate to `cases`, then fill the remainder with random
cases. -/
def generateTuples (specs : List ParsedInput) (cases : Nat) (seed : Nat) (pbt : Pbt) :
    Except String (List (List Int)) :=
  if cases = 0 then Except.ok []
  else
    match (if pbt.enabled then validate_pbt_config pbt else Except.ok ()) with
    | Except.error e => Except.error e
    | Except.ok _ =>
      let seeded := (seeded_tuples specs cases pbt).take cases
      let random_needed := cases - seeded.length
      Except.ok (seeded ++ generate_random_cases specs random_needed seed)

/-- Embeds `format_case` from src/generator.rs. -/
def format_case (values : List Int) : String :=
  String.intercalate " " (values.map toString) ++ "\n"

/-- Embeds `generate_inputs` from src/generator.rs: the rendered corpus. -/
def generate_inputs (specs : List ParsedInput) (cases : Nat) (seed : Nat) (pbt : Pbt) :
    Except String (List String) :=
  (generateTuples specs cases seed pbt).map (List.map format_case)

/-! ### Normalizer (src/engine.rs) -/

/-- Embeds `Normalize` from src/config.rs. -/
structure Normalize where
  trim_trailing_ws : Bool
  ignore_final_newline : Bool

/-- Whitespace test used by the normalizer and the range tokenizer: the
ASCII fragment of Rust's `char::is_whitespace` (and exactly the regex
class `\s` used by `parse_constraint`). -/
def isWs (c : Char) : Bool :=
  c = ' ' || c = '\t' || c = '\n' || c = '\x0b' || c = '\x0c' || c = '\r'

/-- Embeds `output.replace("\r\n", "\n")`: left-to-right, non-overlapping
replacement of every CRLF pair by LF. -/
def replaceCrlf : List Char → List Char
  | [] => []
  | [c] => [c]
  | c :: c2 :: rest =>
    if c = '\r' ∧ c2 = '\n' then '\n' :: replaceCrlf rest
    else c :: replaceCrlf (c2 :: rest)

/-- Embeds Rust's `str::split(sep)` over a character predicate: the list
of (possibly empty) pieces between separator characters. -/
def splitBy (p : Char → Bool) : List Char → List (List Char)
  | [] => [[]]
  | c :: rest =>
    let r := splitBy p rest
    if p c then [] :: r
    else (c :: r.headD []) :: r.tail

/-- Embeds `normalized.split('\n')`. -/
def splitNl (l : List Char) : List (List Char) := splitBy (fun c => c == '\n') l

/-- Embeds `join("\n")` over the split pieces. -/
def joinNl : List (List Char) → List Char
  | [] => []
  | [l] => l
  | l :: ls => l ++ '\n' :: joinNl ls

/-- Embeds Rust's `str::trim_end` (restricted to the modelled whitespace
set). -/
def trimEndWs (l : List Char) : List Char := (l.reverse.dropWhile isWs).reverse

/-- Embeds `trim_end_matches('\n')`. -/
def stripTrailingNl (l : List Char) : List Char := (l.reverse.dropWhile (· == '\n')).reverse

/-- Embeds `normalize_output` from src/engine.rs on `List Char`: CRLF to
LF, then optionally right-strip each line, then optionally strip all
trailing newlines. -/
def normalize_output (output : List Char) (normalize : Normalize) : List Char :=
  let n1 := replaceCrlf output
  let n2 := if normalize.trim_trailing_ws then joinNl ((splitNl n1).map trimEndWs) else n1
  if normalize.ignore_final_newline then stripTrailingNl n2 else n2

/-- Verification predicate for the normalizer: the string contains a CRLF
pair, so `replaceCrlf` would change it. -/
def hasCrlf : List Char → Bool
  | [] => false
  | [_] => false
  | c :: c2 :: rest => (decide (c = '\r') && decide (c2 = '\n')) || hasCrlf (c2 :: rest)

/-- Verification predicate for the normalizer: every line of the string is
already right-stripped. -/
def AllTrimmed (l : List Char) : Prop := (splitNl l).map trimEndWs = splitNl l

/-! ### Constraint parser (src/generator.rs) -/

/-- Embeds `InputSpec` from src/config.rs (the `range` string as
`List Char`). -/
structure InputSpec where
  kind : String
  range : Option (List Char)
  min : Option Int
  max : Option Int

/-- Comparison operator of one range token. -/
inductive CmpOp where
  | lt
  | le
  | gt
  | ge
  | eq
deriving DecidableEq, Repr

/-- Decimal digit run parser for `parse_constraint`: all characters must
be ASCII digits and there must be at least one. -/
def parseNatDigits (l : List Char) : Option Nat :=
  if l = [] then none
  else if l.all Char.isDigit then
    some (l.foldl (fun acc c => acc * 10 + (c.toNat - '0'.toNat)) 0)
  else none

/-- Embeds the `-?\d+` part of the `parse_constraint` regex followed by
Rust's `str::parse::<i64>`, which fails on values outside the `i64`
range. -/
def parseIntToken (l : List Char) : Option Int :=
  let raw : Option Int :=
    match l with
    | '-' :: rest => (parseNatDigits rest).map (fun n => -(n : Int))
    | _ => (parseNatDigits l).map (fun n => (n : Int))
  raw.bind fun v => if i64Min ≤ v ∧ v ≤ i64Max then some v else none

/-- Embeds `parse_constraint` from src/generator.rs: the anchored regex
`^(<=|>=|<|>|==)\s*(-?\d+)$` with the two-character operators matched
first. -/
def parse_constraint (token : List Char) : Option (CmpOp × Int) :=
  let finish : CmpOp → List Char → Option (CmpOp × Int) := fun op rest =>
    (parseIntToken (rest.dropWhile isWs)).map fun v => (op, v)
  match token with
  | '<' :: '=' :: rest => finish CmpOp.le rest
  | '>' :: '=' :: rest => finish CmpOp.ge rest
  | '=' :: '=' :: rest => finish CmpOp.eq rest
  | '<' :: rest => finish CmpOp.lt rest
  | '>' :: rest => finish CmpOp.gt rest
  | _ => none

/-- Embeds the `match op` arm of `parse_bounds`: one token narrows (or,
for `==`, overrides) the running `(min, max)` pair. -/
def applyConstraint (mm : Int × Int) (c : CmpOp × Int) : Int × Int :=
  match c.1 with
  | CmpOp.gt => (max mm.1 (c.2 + 1), mm.2)
  | CmpOp.ge => (max mm.1 c.2, mm.2)
  | CmpOp.lt => (mm.1, min mm.2 (c.2 - 1))
  | CmpOp.le => (mm.1, min mm.2 c.2)
  | CmpOp.eq => (c.2, c.2)

/-- Embeds Rust's two-sided `str::trim` over the modelled whitespace
set. -/
def trimWs (l : List Char) : List Char := ((l.dropWhile isWs).reverse.dropWhile isWs).reverse

/-- Separator predicate of `range.split(&[',', '&'])`. -/
def isRangeSep (c : Char) : Bool := c == ',' || c == '&'

/-- Embeds the token loop of `parse_bounds`: trim each piece, skip empty
pieces, fail on unparsable tokens, apply the rest in order. -/
def applyTokens (mm : Int × Int) (tokens : List (List Char)) : Except String (Int × Int) :=
  tokens.foldlM
    (fun mm token =>
      let token := trimWs token
      if token = [] then Except.ok mm
      else
        match parse_constraint token with
        | none => Except.error "unsupported range expression token"
        | some c => Except.ok (applyConstraint mm c))
    mm

/-- Embeds `parse_bounds` from src/generator.rs: defaults `-100` / `100`,
`min`/`max` priming, token application, and the final `min > max`
check. -/
def parse_bounds (spec : InputSpec) : Except String (Int × Int) := do
  let init : Int × Int := (spec.min.getD (-100), spec.max.getD 100)
  let mm ←
    match spec.range with
    | none => Except.ok init
    | some range => applyTokens init (splitBy isRangeSep range)
  if mm.1 > mm.2 then Except.error "invalid bounds: min > max" else Except.ok mm

/-! ### Differential orchestrator aggregation (src/engine.rs) -/

/-- Embeds `Failure` from src/engine.rs restricted to the fields that
drive control flow: `candidate_index = none` is the origin/engine
sentinel.  The textual fields (input, reason, captured streams) do not
influence bucketing, verdicts or the exit code and are omitted. -/
structure Failure where
  case_index : Nat
  candidate_index : Option Nat
deriving DecidableEq, Repr

/-- Embeds the bucketing loop of `run` in src/engine.rs: split the sorted
failure list into infrastructure failures and per-candidate buckets,
keeping at most one failure per candidate when `stop_on_first_fail` is
set. -/
def bucketFailures (k : Nat) (stop_on_first_fail : Bool) (failures : List Failure) :
    List Failure × List (List Failure) :=
  failures.foldl
    (fun acc f =>
      match f.candidate_index with
      | some ci =>
        if stop_on_first_fail ∧ acc.2.getD ci [] ≠ [] then acc
        else (acc.1, acc.2.set ci (acc.2.getD ci [] ++ [f]))
      | none => (acc.1 ++ [f], acc.2))
    ([], List.replicate k [])

/-- Embeds `failed_count` from `run`: candidates with a non-empty
bucket. -/
def failedCount (candidate_failures : List (List Failure)) : Nat :=
  (candidate_failures.filter (fun b => decide (b ≠ []))).length

/-- Per-candidate verdict as printed by `print_candidate_summary`. -/
inductive Verdict where
  | pass
  | unknown
  | fail (mismatches : Nat)
deriving DecidableEq, Repr

/-- Embeds the verdict branch of `print_candidate_summary`: FAIL on a
non-empty bucket, otherwise UNKNOWN under an infrastructure failure,
otherwise PASS. -/
def verdictOf (bucket : List Failure) (has_infra_failure : Bool) : Verdict :=
  if bucket.length > 0 then Verdict.fail bucket.length
  else if has_infra_failure then Verdict.unknown
  else Verdict.pass

/-- Embeds the verdict table of one run: candidate index order. -/
def verdicts (k : Nat) (stop_on_first_fail : Bool) (failures : List Failure) : List Verdict :=
  let agg := bucketFailures k stop_on_first_fail failures
  agg.2.map (fun b => verdictOf b (decide (agg.1 ≠ [])))

/-- Embeds the exit-code decision of `run` in src/engine.rs: `0` when no
candidate has a non-empty bucket and no infrastructure failure was
recorded, else `1`. -/
def exitCode (k : Nat) (stop_on_first_fail : Bool) (failures : List Failure) : Nat :=
  let agg := bucketFailures k stop_on_first_fail failures
  if failedCount agg.2 = 0 ∧ agg.1 = [] then 0 else 1

/-! ### Runner (src/runner.rs) -/

/-- Embeds `Program` from src/config.rs. -/
structure Program where
  name : Option String
  cmd : List String
  image : Option String
  timeout_ms : Option Nat
  mounts : List String

/-- Embeds `MountSpec` from src/runner.rs. -/
structure MountSpec where
  host : String
  container : String
  mode : Option String
deriving DecidableEq, Repr

/-- Embeds `Limits` from src/config.rs. -/
structure Limits where
  cpu_seconds : Option Nat
  memory_mb : Option Nat
  file_size_kb : Option Nat
  nofile : Option Nat
  nproc : Option Nat

/-- Embeds `parse_mounts` from src/runner.rs: split each mount string on
`:`, trim host/container/mode, reject empty host or container and more
than three parts. -/
def parse_mounts (mounts : List String) : Except String (List MountSpec) :=
  mounts.mapM fun mount =>
    let parts := mount.splitOn ":"
    let host := ((parts.get? 0).getD "").trim
    let container := ((parts.get? 1).getD "").trim
    let mode := (parts.get? 2).map String.trim
    if host = "" ∨ container = "" then Except.error "invalid mount syntax: empty host or container"
    else if (parts.get? 3).isSome then Except.error "invalid mount syntax: too many separators"
    else Except.ok ⟨host, container, mode.filter (fun m => decide (m ≠ ""))⟩

/-- Embeds `host_path_from_mount` from src/runner.rs.  The later
`fs::canonicalize(p).unwrap_or(p)` step is filesystem I/O outside the
embedding and is modelled by its fallback, the unresolved path. -/
def host_path_from_mount (host : String) (config_dir : String) : String :=
  if host.startsWith "/" then host else config_dir ++ "/" ++ host

/-- Embeds `render_docker_mount` from src/runner.rs. -/
def render_docker_mount (mount : MountSpec) (config_dir : String) : String :=
  host_path_from_mount mount.host config_dir ++ ":" ++ mount.container ++
    (match mount.mode with
     | some m => ":" ++ m
     | none => "")

/-- Embeds `build_docker_cmd` from src/runner.rs: the fixed docker
preamble, optional memory and pids limits, volume arguments, the image,
then the program argv unchanged. -/
def build_docker_cmd (image : String) (cmd : List String) (mounts : List MountSpec)
    (config_dir : String) (limits : Limits) : List String :=
  ["docker", "run", "--rm", "-i", "--network", "none"] ++
    (match limits.memory_mb with
     | some m => ["--memory", toString m ++ "m"]
     | none => []) ++
    (match limits.nproc with
     | some n => ["--pids-limit", toString n]
     | none => []) ++
    (mounts.map (fun mt => ["-v", render_docker_mount mt config_dir])).flatten ++
    [image] ++ cmd

/-- Embeds `resolve_local_cmd` and `build_local_mount_map` from
src/runner.rs: rewrite each argv element that exactly matches a mount's
container token to the resolved host path.  The Rust `HashMap` keeps the
last insert for a duplicated container token, hence the reversed
search. -/
def resolve_local_cmd (cmd : List String) (mounts : List MountSpec) (config_dir : String) :
    List String :=
  cmd.map fun arg =>
    match mounts.reverse.find? (fun mt => mt.container == arg) with
    | some mt => host_path_from_mount mt.host config_dir
    | none => arg

/-- Embeds the pre-spawn check of `run_command` from src/runner.rs: the
actual spawn, pipe and wait work is I/O beyond the embedding, so the model
returns the argv the runner would spawn. -/
def run_command_argv (command_argv : List String) : Except String (List String) :=
  if command_argv = [] then Except.error "empty command" else Except.ok command_argv

/-- Embeds `run_program` from src/runner.rs up to its spawn point: parse
mounts, then either build the docker argv (container mode) or check for an
empty `cmd` and substitute mounts (local mode).  `Except.ok argv` is the
command the runner proceeds to spawn; `Except.error` means no process is
spawned. -/
def run_program (program : Program) (config_dir : String) (limits : Limits) :
    Except String (List String) := do
  let mounts ← parse_mounts program.mounts
  match program.image with
  | some image => run_command_argv (build_docker_cmd image program.cmd mounts config_dir limits)
  | none =>
    if program.cmd = [] then Except.error "program cmd is empty"
    else run_command_argv (resolve_local_cmd program.cmd mounts config_dir)

/-! ### Concrete values and verification predicates used by the theorems -/

/-- Helper: concrete limits value with nothing set. -/
def noLimits : Limits := ⟨none, none, none, none, none⟩

/-- Helper: a concrete configuration with `edge_case_ratio = 2`, outside
`[0, 1]`. -/
def pbtBadOn : Pbt := ⟨true, mkRat 2 1, 0, 128⟩

/-- Helper: the same invalid ratios with PBT disabled. -/
def pbtBadOff : Pbt := ⟨false, mkRat 2 1, 0, 128⟩

/-- Helper: PBT disabled, for witnesses. -/
def pbtOff : Pbt := ⟨false, 0, 0, 128⟩

/-- Helper: PBT enabled with `edge_case_ratio = 1`, `partition_ratio = 0`,
for witnesses with a fully seeded corpus. -/
def pbtOn : Pbt := ⟨true, 1, 0, 128⟩

/-- Helper: PBT enabled with both ratios zero, for the duplication
counterexample. -/
def pbtZeroOn : Pbt := ⟨true, 0, 0, 128⟩

/-- Modelled from the spec (the C2 claim's reading of the stopping rule):
iterate the cursor, counting the partition tuples *added in this phase*
against the budget `P` and stopping after `4·P` *consecutive* cursor
steps that added no new tuple.  The fuel bounds the loop (each step
either adds a tuple, at most `P` times, or lengthens a no-add streak, at
most `4·P` steps long), keeping the recursion structural. -/
def partitionClaimGo (pvals : List (List Int)) (budget : Nat) :
    Nat → Nat → Nat → Nat → List (List Int) → List (List Int)
  | 0, _, _, _, out => out
  | fuel + 1, cursor, added, streak, out =>
    if budget ≤ added ∨ budget * 4 ≤ streak then out
    else
      let t := tupleAt pvals cursor
      if t ∈ out then partitionClaimGo pvals budget fuel (cursor + 1) added (streak + 1) out
      else partitionClaimGo pvals budget fuel (cursor + 1) (added + 1) 0 (out ++ [t])

/-- Modelled from the spec (C2 claim): the partition phase as the claim
states it — stop when `P` partition tuples have been added or after `4·P`
consecutive no-add cursor values. -/
def partition_phase_claim (out : List (List Int)) (specs : List ParsedInput)
    (budget : Nat) : List (List Int) :=
  if budget = 0 ∨ specs = [] then out
  else partitionClaimGo (specs.map partition_points) budget
    ((budget + 1) * (budget * 4 + 1)) 0 0 0 out

/-- Helper: the spec of field `i` (with a harmless default out of
range). -/
def specAt (specs : List ParsedInput) (i : Nat) : ParsedInput := specs.getD i ⟨0, 0⟩

/-- Tuple well-formedness for C3: one value per field, each inside the
field's closed interval. -/
def InRange (specs : List ParsedInput) (t : List Int) : Prop :=
  t.length = specs.length ∧
    ∀ i, i < specs.length →
      (specAt specs i).min ≤ t.getD i 0 ∧ t.getD i 0 ≤ (specAt specs i).max

/-! ### C9: empty argv handling in the runner -/

/-- C9 (amended): in local mode (no container image), `run_program`
returns an error whenever the program's `cmd` is empty, for every working
directory, limits and mount list; no spawn argv is produced. -/
theorem run_program_local_empty_cmd_error (program : Program) (config_dir : String)
    (limits : Limits) (himg : program.image = none) (hcmd : program.cmd = []) :
    ∃ e, run_program program config_dir limits = Except.error e := by
  unfold run_program
  cases hm : parse_mounts program.mounts with
  | error e => exact ⟨e, rfl⟩
  | ok ms => exact ⟨"program cmd is empty", by rw [himg, hcmd]; rfl⟩

/-- C9 witness: the amended theorem at a concrete local program. -/
theorem run_program_local_empty_cmd_error_witness :
    ∃ e, run_program ⟨none, [], none, none, []⟩ "." noLimits = Except.error e :=
  run_program_local_empty_cmd_error ⟨none, [], none, none, []⟩ "." noLimits rfl rfl

/-- C9 counterexample: with a container image and an empty `cmd`,
`run_program` does not fail; it builds and would spawn the docker argv, so
the claim's "with or without a container image" is false on the code. -/
theorem run_program_docker_empty_cmd_spawns :
    run_program ⟨none, [], some "img", none, []⟩ "." noLimits =
      Except.ok ["docker", "run", "--rm", "-i", "--network", "none", "img"] := by rfl

/-! ### C5: fatal PBT configuration validation -/

/-- Helper: `validate_pbt_config` rejects every configuration the spec
calls fatal. -/
theorem validate_pbt_config_error (pbt : Pbt)
    (hbad : ¬ (0 ≤ pbt.edge_case_ratio ∧ pbt.edge_case_ratio ≤ 1) ∨
      ¬ (0 ≤ pbt.partition_ratio ∧ pbt.partition_ratio ≤ 1) ∨
      1 < pbt.edge_case_ratio + pbt.partition_ratio ∨
      pbt.max_cartesian_cases = 0) :
    ∃ e, validate_pbt_config pbt = Except.error e := by
  unfold validate_pbt_config
  by_cases h1 : 0 ≤ pbt.edge_case_ratio ∧ pbt.edge_case_ratio ≤ 1
  · by_cases h2 : 0 ≤ pbt.partition_ratio ∧ pbt.partition_ratio ≤ 1
    · by_cases h3 : 1 < pbt.edge_case_ratio + pbt.partition_ratio
      · exact ⟨_, by rw [if_neg (not_not_intro h1), if_neg (not_not_intro h2), if_pos h3]⟩
      · have h4 : pbt.max_cartesian_cases = 0 := by tauto
        exact ⟨_, by
          rw [if_neg (not_not_intro h1), if_neg (not_not_intro h2), if_neg h3, if_pos h4]⟩
    · exact ⟨_, by rw [if_neg (not_not_intro h1), if_pos h2]⟩
  · exact ⟨_, by rw [if_pos h1]⟩

/-- C5 (amended): `generate_inputs` fails on an invalid PBT configuration
(ratio outside `[0, 1]`, ratio sum above `1`, or zero
`max_cartesian_cases`) provided the case count is non-zero and PBT is
enabled; with `cases = 0` the function returns the empty corpus before
validating, and with PBT disabled the configuration is never checked. -/
theorem generate_inputs_invalid_pbt_error (specs : List ParsedInput) (cases seed : Nat)
    (pbt : Pbt) (hc : cases ≠ 0) (he : pbt.enabled = true)
    (hbad : ¬ (0 ≤ pbt.edge_case_ratio ∧ pbt.edge_case_ratio ≤ 1) ∨
      ¬ (0 ≤ pbt.partition_ratio ∧ pbt.partition_ratio ≤ 1) ∨
      1 < pbt.edge_case_ratio + pbt.partition_ratio ∨
      pbt.max_cartesian_cases = 0) :
    ∃ e, generate_inputs specs cases seed pbt = Except.error e := by
  obtain ⟨e, hv⟩ := validate_pbt_config_error pbt hbad
  refine ⟨e, ?_⟩
  unfold generate_inputs generateTuples
  rw [if_neg hc, he]
  simp only [if_true, hv]
  rfl

/-- C5 witness: the amended theorem at a concrete invalid enabled
configuration. -/
theorem generate_inputs_invalid_pbt_error_witness :
    ∃ e, generate_inputs [⟨0, 1⟩] 5 7 pbtBadOn = Except.error e :=
  generate_inputs_invalid_pbt_error [⟨0, 1⟩] 5 7 pbtBadOn (by decide) rfl
    (Or.inl (by decide))

/-- C5 counterexample: the claim as stated quantifies over every `N` and
does not mention `pbt.enabled`.  With `N = 0` an enabled invalid
configuration is accepted (the generator returns the empty corpus before
validating), and with PBT disabled an invalid configuration is accepted
for `N > 0`; in both cases `edge_case_ratio = 2` lies outside `[0, 1]`. -/
theorem generate_inputs_invalid_pbt_accepted :
    generate_inputs [⟨0, 1⟩] 0 7 pbtBadOn = Except.ok [] ∧
      (∃ out, generate_inputs [⟨0, 1⟩] 3 7 pbtBadOff = Except.ok out) ∧
      ¬ (0 ≤ pbtBadOn.edge_case_ratio ∧ pbtBadOn.edge_case_ratio ≤ 1) ∧
      ¬ (0 ≤ pbtBadOff.edge_case_ratio ∧ pbtBadOff.edge_case_ratio ≤ 1) :=
  ⟨rfl, ⟨_, rfl⟩, by decide, by decide⟩

/-! ### C6: exit code versus verdicts -/

/-- Helper: a verdict under no infrastructure failure is PASS exactly for
an empty bucket. -/
theorem verdictOf_false_eq_pass (b : List Failure) :
    verdictOf b false = Verdict.pass ↔ b = [] := by
  cases b with
  | nil => simp [verdictOf]
  | cons f bs => simp [verdictOf]

/-- Helper: `failedCount` is zero exactly when every bucket is empty. -/
theorem failedCount_eq_zero (buckets : List (List Failure)) :
    failedCount buckets = 0 ↔ ∀ b ∈ buckets, b = [] := by
  unfold failedCount
  rw [List.length_eq_zero, List.filter_eq_nil_iff]
  constructor
  · intro h b hb
    have := h b hb
    simpa using this
  · intro h b hb
    simpa using h b hb

/-- C6: the orchestrator's exit code is `0` if and only if every
candidate's verdict is PASS (its failure bucket is empty) and no
origin/engine infrastructure failure was recorded. -/
theorem exitCode_zero_iff_all_pass (k : Nat) (stop_on_first_fail : Bool)
    (failures : List Failure) :
    exitCode k stop_on_first_fail failures = 0 ↔
      ((∀ v ∈ verdicts k stop_on_first_fail failures, v = Verdict.pass) ∧
        (bucketFailures k stop_on_first_fail failures).1 = []) := by
  constructor
  · intro h0
    unfold exitCode at h0
    by_cases hcond : failedCount (bucketFailures k stop_on_first_fail failures).2 = 0 ∧
        (bucketFailures k stop_on_first_fail failures).1 = []
    · obtain ⟨hfc, hinfra⟩ := hcond
      refine ⟨?_, hinfra⟩
      intro v hv
      unfold verdicts at hv
      rw [List.mem_map] at hv
      obtain ⟨b, hb, hvb⟩ := hv
      have hbnil : b = [] := (failedCount_eq_zero _).mp hfc b hb
      subst hvb
      subst hbnil
      rw [hinfra]
      simp [verdictOf]
    · rw [if_neg hcond] at h0
      exact absurd h0 (by decide)
  · rintro ⟨hall, hinfra⟩
    unfold exitCode
    have hfc : failedCount (bucketFailures k stop_on_first_fail failures).2 = 0 := by
      rw [failedCount_eq_zero]
      intro b hb
      have hv := hall (verdictOf b
          (decide ((bucketFailures k stop_on_first_fail failures).1 ≠ [])))
        (by unfold verdicts; exact List.mem_map.mpr ⟨b, hb, rfl⟩)
      rw [hinfra] at hv
      have hd : (decide (([] : List Failure) ≠ [])) = false := by decide
      rw [hd] at hv
      exact (verdictOf_false_eq_pass b).mp hv
    rw [if_pos (And.intro hfc hinfra)]

/-! ### Generator structure lemmas -/

/-- Helper: the random phase produces exactly `count` cases. -/
theorem randomGo_length (specs : List ParsedInput) :
    ∀ count seed, (randomGo specs count seed).length = count := by
  intro count
  induction count with
  | zero => intro seed; rfl
  | succ n ih =>
    intro seed
    unfold randomGo
    simp [ih]

/-- Helper: every successful `generateTuples` result is the truncated
seeded list followed by the random fill. -/
theorem generateTuples_ok_eq (specs : List ParsedInput) (cases seed : Nat) (pbt : Pbt)
    (out : List (List Int)) (h : generateTuples specs cases seed pbt = Except.ok out) :
    out = (seeded_tuples specs cases pbt).take cases ++
      generate_random_cases specs (cases - ((seeded_tuples specs cases pbt).take cases).length)
        seed := by
  unfold generateTuples at h
  by_cases hc : cases = 0
  · subst hc
    rw [if_pos rfl] at h
    injection h with h
    subst h
    simp [generate_random_cases, randomGo]
  · rw [if_neg hc] at h
    cases hv : (if pbt.enabled then validate_pbt_config pbt else Except.ok ()) with
    | error e => rw [hv] at h; exact absurd h (by simp)
    | ok u => rw [hv] at h; injection h with h; exact h.symm

/-- Helper: `validate_pbt_config` accepts every configuration satisfying
the documented constraints. -/
theorem validate_pbt_config_ok (pbt : Pbt)
    (h1 : 0 ≤ pbt.edge_case_ratio ∧ pbt.edge_case_ratio ≤ 1)
    (h2 : 0 ≤ pbt.partition_ratio ∧ pbt.partition_ratio ≤ 1)
    (h3 : ¬ 1 < pbt.edge_case_ratio + pbt.partition_ratio)
    (h4 : pbt.max_cartesian_cases ≠ 0) :
    validate_pbt_config pbt = Except.ok () := by
  unfold validate_pbt_config
  rw [if_neg (not_not_intro h1), if_neg (not_not_intro h2), if_neg h3, if_neg h4]

/-- Helper: evaluation shape of `generateTuples` once validation is known
to succeed; used to instantiate witnesses at enabled configurations
without reducing the irreducible rational addition inside the kernel. -/
theorem generateTuples_eq_of_validate_ok (specs : List ParsedInput) (cases seed : Nat)
    (pbt : Pbt) (hc : cases ≠ 0) (he : pbt.enabled = true)
    (hv : validate_pbt_config pbt = Except.ok ()) :
    generateTuples specs cases seed pbt = Except.ok
      ((seeded_tuples specs cases pbt).take cases ++
        generate_random_cases specs
          (cases - ((seeded_tuples specs cases pbt).take cases).length) seed) := by
  unfold generateTuples
  rw [if_neg hc, he, if_pos rfl, hv]

/-! ### C1: corpus length is exactly N -/

/-- C1: whenever `generate_inputs` succeeds, it returns exactly `cases`
input strings: the seeded cases are truncated to `cases` preserving
insertion order and the random phase fills the remainder. -/
theorem generate_inputs_corpus_length (specs : List ParsedInput) (cases seed : Nat)
    (pbt : Pbt) (out : List String) (h : generate_inputs specs cases seed pbt = Except.ok out) :
    out.length = cases := by
  unfold generate_inputs at h
  cases hg : generateTuples specs cases seed pbt with
  | error e => rw [hg] at h; exact absurd h (by simp [Except.map])
  | ok l =>
    rw [hg] at h
    injection h with h
    subst h
    have hshape := generateTuples_ok_eq specs cases seed pbt l hg
    have htake : ((seeded_tuples specs cases pbt).take cases).length ≤ cases := by
      simp [List.length_take]
    rw [List.length_map, hshape, List.length_append]
    unfold generate_random_cases
    rw [randomGo_length]
    omega

/-- C1 witness: a concrete two-case run (PBT disabled, so both cases come
from the random phase of the modelled stream). -/
theorem generate_inputs_corpus_length_witness :
    ∃ out, generate_inputs [⟨1, 3⟩] 2 7 pbtOff = Except.ok out ∧ out.length = 2 :=
  ⟨["3\n", "1\n"], rfl, generate_inputs_corpus_length [⟨1, 3⟩] 2 7 pbtOff ["3\n", "1\n"] rfl⟩

/-! ### C10: the seeded prefix does not depend on the seed -/

/-- Helper: `getD` on an append reads the left list while in range. -/
theorem getD_append_left {α} (l l' : List α) (i : Nat) (d : α) (h : i < l.length) :
    (l ++ l').getD i d = l.getD i d := by
  rw [List.getD_eq_getElem?_getD, List.getD_eq_getElem?_getD, List.getElem?_append_left h]

/-- C10: the seed is consumed only by the random phase: two runs that
differ only in the seed produce corpora of equal length that agree at
every index of the seeded (edge-case and partition) prefix. -/
theorem generate_inputs_seed_independent (specs : List ParsedInput) (cases : Nat) (pbt : Pbt)
    (s1 s2 : Nat) (out1 out2 : List String)
    (h1 : generate_inputs specs cases s1 pbt = Except.ok out1)
    (h2 : generate_inputs specs cases s2 pbt = Except.ok out2) :
    out1.length = out2.length ∧
      ∀ i < ((seeded_tuples specs cases pbt).take cases).length,
        out1.getD i "" = out2.getD i "" := by
  unfold generate_inputs at h1 h2
  cases hg1 : generateTuples specs cases s1 pbt with
  | error e => rw [hg1] at h1; exact absurd h1 (by simp [Except.map])
  | ok l1 =>
    cases hg2 : generateTuples specs cases s2 pbt with
    | error e => rw [hg2] at h2; exact absurd h2 (by simp [Except.map])
    | ok l2 =>
      rw [hg1] at h1
      rw [hg2] at h2
      injection h1 with h1
      injection h2 with h2
      subst h1
      subst h2
      have e1 := generateTuples_ok_eq specs cases s1 pbt l1 hg1
      have e2 := generateTuples_ok_eq specs cases s2 pbt l2 hg2
      subst e1
      subst e2
      constructor
      · simp [generate_random_cases, randomGo_length]
      · intro i hi
        rw [List.map_append, List.map_append, getD_append_left _ _ _ _ (by simpa using hi),
          getD_append_left _ _ _ _ (by simpa using hi)]

/-- Helper: `pbtOn` passes validation (the rational sum is rewritten with
`Rat.add_def` because `Rat.add` is irreducible). -/
theorem pbtOn_validate_ok : validate_pbt_config pbtOn = Except.ok () :=
  validate_pbt_config_ok pbtOn (by decide) (by decide)
    (by rw [Rat.add_def]; decide) (by decide)

/-- Helper: concrete corpus for the enabled configuration `pbtOn` over the
single field `[1, 3]`: the edge budget is `2`, so the corpus is fully
seeded (midpoint then all-min) and the random phase is empty. -/
theorem generate_inputs_pbtOn_eval (seed : Nat) :
    generate_inputs [⟨1, 3⟩] 2 seed pbtOn = Except.ok ["2\n", "1\n"] := by
  unfold generate_inputs
  rw [generateTuples_eq_of_validate_ok [⟨1, 3⟩] 2 seed pbtOn (by decide) rfl pbtOn_validate_ok]
  rfl

/-- C10 witness: the theorem at a concrete enabled configuration with a
non-empty seeded prefix, seeds 7 and 8. -/
theorem generate_inputs_seed_independent_witness :
    ∃ out1 out2, generate_inputs [⟨1, 3⟩] 2 7 pbtOn = Except.ok out1 ∧
      generate_inputs [⟨1, 3⟩] 2 8 pbtOn = Except.ok out2 ∧
      out1.length = out2.length ∧
      ∀ i < ((seeded_tuples [⟨1, 3⟩] 2 pbtOn).take 2).length,
        out1.getD i "" = out2.getD i "" :=
  ⟨["2\n", "1\n"], ["2\n", "1\n"], generate_inputs_pbtOn_eval 7, generate_inputs_pbtOn_eval 8,
    generate_inputs_seed_independent [⟨1, 3⟩] 2 pbtOn 7 8 ["2\n", "1\n"] ["2\n", "1\n"]
      (generate_inputs_pbtOn_eval 7) (generate_inputs_pbtOn_eval 8)⟩

/-! ### C4: deduplication of the corpus -/

/-- Helper: `push_unique` preserves duplicate-freedom. -/
theorem push_unique_nodup (out : List (List Int)) (v : List Int) (budget : Nat)
    (h : out.Nodup) : (push_unique out v budget).Nodup := by
  unfold push_unique
  split
  · exact h
  · split
    · exact h
    · next hmem => simp [List.nodup_append, h, hmem]

/-- Helper: a step-preserved property survives a left fold. -/
theorem foldl_preserve {α β : Type} {P : β → Prop} (f : β → α → β)
    (hf : ∀ b a, P b → P (f b a)) : ∀ (l : List α) (b : β), P b → P (List.foldl f b l) := by
  intro l
  induction l with
  | nil => intro b hb; exact hb
  | cons a l ih => intro b hb; exact ih (f b a) (hf b a hb)

/-- Helper: the single-field edge sweep inner loop preserves
duplicate-freedom. -/
theorem edgeSinglesInner_nodup (mids : List Int) (idx budget : Nat) :
    ∀ es out, out.Nodup → (edgeSinglesInner mids idx budget es out).1.Nodup := by
  intro es
  induction es with
  | nil => intro out h; exact h
  | cons e es ih =>
    intro out h
    show (if budget ≤ (push_unique out (mids.set idx e) budget).length
        then (push_unique out (mids.set idx e) budget, true)
        else edgeSinglesInner mids idx budget es (push_unique out (mids.set idx e) budget)).1.Nodup
    split
    · exact push_unique_nodup _ _ _ h
    · exact ih _ (push_unique_nodup _ _ _ h)

/-- Helper: the single-field edge sweep preserves duplicate-freedom. -/
theorem edgeSingles_nodup (mids : List Int) (budget : Nat) :
    ∀ pairs out, out.Nodup → (edgeSingles mids budget pairs out).1.Nodup := by
  intro pairs
  induction pairs with
  | nil => intro out h; exact h
  | cons p rest ih =>
    intro out h
    unfold edgeSingles
    obtain ⟨idx, spec⟩ := p
    cases hinner : edgeSinglesInner mids idx budget (edge_values spec) out with
    | mk out' stopped =>
      have h' : out'.Nodup := by
        have := edgeSinglesInner_nodup mids idx budget (edge_values spec) out h
        rw [hinner] at this
        exact this
      cases stopped
      · simp only
        exact ih out' h'
      · simp only
        exact h'

/-- Helper: the Cartesian enumeration preserves duplicate-freedom. -/
theorem cartesian_collect_nodup (budget : Nat) :
    ∀ sets stack out, out.Nodup → (cartesian_collect budget sets stack out).Nodup := by
  intro sets
  induction sets with
  | nil =>
    intro stack out h
    unfold cartesian_collect
    split
    · exact h
    · exact push_unique_nodup _ _ _ h
  | cons es rest ih =>
    intro stack out h
    unfold cartesian_collect
    split
    · exact h
    · refine foldl_preserve _ ?_ es out h
      intro o v ho
      dsimp only
      split
      · exact ho
      · exact ih _ o ho

/-- Helper: the partition loop preserves duplicate-freedom. -/
theorem partitionGo_nodup (pvals : List (List Int)) (budget : Nat) :
    ∀ fuel cursor out, out.Nodup → (partitionGo pvals budget fuel cursor out).Nodup := by
  intro fuel
  induction fuel with
  | zero => intro cursor out h; exact h
  | succ n ih =>
    intro cursor out h
    unfold partitionGo
    split
    · split
      · exact push_unique_nodup _ _ _ h
      · exact ih _ _ (push_unique_nodup _ _ _ h)
    · exact h

/-- Helper: the edge phase preserves duplicate-freedom. -/
theorem extend_edge_cases_nodup (out : List (List Int)) (specs : List ParsedInput)
    (budget maxc : Nat) (h : out.Nodup) : (extend_edge_cases out specs budget maxc).Nodup := by
  unfold extend_edge_cases
  split
  · exact h
  · dsimp only
    have h5 : (push_unique (push_unique (push_unique (push_unique (push_unique out
        (specs.map fun s => midpoint s.min s.max) budget)
        (specs.map fun s => s.min) budget)
        (specs.map fun s => s.max) budget)
        (altMinMax specs) budget)
        (altMaxMin specs) budget).Nodup := by
      exact push_unique_nodup _ _ _ (push_unique_nodup _ _ _ (push_unique_nodup _ _ _
        (push_unique_nodup _ _ _ (push_unique_nodup _ _ _ h))))
    cases hs : edgeSingles (specs.map fun s => midpoint s.min s.max) budget specs.enum
        (push_unique (push_unique (push_unique (push_unique (push_unique out
          (specs.map fun s => midpoint s.min s.max) budget)
          (specs.map fun s => s.min) budget)
          (specs.map fun s => s.max) budget)
          (altMinMax specs) budget)
          (altMaxMin specs) budget) with
    | mk out6 stopped =>
      have h6 : out6.Nodup := by
        have := edgeSingles_nodup (specs.map fun s => midpoint s.min s.max) budget specs.enum
          _ h5
        rw [hs] at this
        exact this
      cases stopped
      · dsimp only
        split
        · exact h6
        · exact cartesian_collect_nodup _ _ _ _ h6
      · exact h6

/-- Helper: the partition phase preserves duplicate-freedom. -/
theorem extend_partition_cases_nodup (out : List (List Int)) (specs : List ParsedInput)
    (budget : Nat) (h : out.Nodup) : (extend_partition_cases out specs budget).Nodup := by
  unfold extend_partition_cases
  split
  · exact h
  · exact partitionGo_nodup _ _ _ _ _ h

/-- C4 (amended): the seeded portion of the corpus — the edge-case and
partition tuples as truncated into the returned list — contains no two
equal tuples; the random fill appended after it is not deduplicated. -/
theorem seeded_tuples_nodup (specs : List ParsedInput) (cases : Nat) (pbt : Pbt) :
    ((seeded_tuples specs cases pbt).take cases).Nodup := by
  refine (List.take_sublist cases _).nodup ?_
  unfold seeded_tuples
  split
  · exact extend_partition_cases_nodup _ _ _
      (extend_edge_cases_nodup _ _ _ _ List.nodup_nil)
  · exact List.nodup_nil

/-- Helper: `pbtZeroOn` passes validation. -/
theorem pbtZeroOn_validate_ok : validate_pbt_config pbtZeroOn = Except.ok () :=
  validate_pbt_config_ok pbtZeroOn (by decide) (by decide)
    (by rw [Rat.add_def]; decide) (by decide)

/-- C4 counterexample: with PBT enabled (ratios zero, so the corpus is
filled by the random phase) over the degenerate field `[0, 0]`, the
returned list repeats the tuple `(0)` three times, so `generate_inputs`
output is not deduplicated by tuple value. -/
theorem generate_inputs_duplicate_tuples :
    ∃ out, generate_inputs [⟨0, 0⟩] 3 42 pbtZeroOn = Except.ok out ∧
      pbtZeroOn.enabled = true ∧ ¬ out.Nodup := by
  refine ⟨["0\n", "0\n", "0\n"], ?_, rfl, by decide⟩
  unfold generate_inputs
  rw [generateTuples_eq_of_validate_ok [⟨0, 0⟩] 3 42 pbtZeroOn (by decide) rfl
    pbtZeroOn_validate_ok]
  rfl

/-! ### C2: stopping discipline of the partition phase -/

/-- Helper: once the budget is met, folding further cursor pushes is the
identity. -/
theorem foldl_push_unique_full (pvals : List (List Int)) (budget : Nat)
    (out : List (List Int)) (hfull : budget ≤ out.length) :
    ∀ l : List Nat,
      l.foldl (fun o c => push_unique o (tupleAt pvals c) budget) out = out := by
  intro l
  induction l with
  | nil => rfl
  | cons c cs ih =>
    simp only [List.foldl_cons]
    rw [show push_unique out (tupleAt pvals c) budget = out from by
      unfold push_unique; rw [if_pos hfull]]
    exact ih

/-- Helper: the partition loop equals a fold of budget-guarded unique
pushes over the cursor range `0, …, 4·budget`, provided enough fuel. -/
theorem partitionGo_eq_fold (pvals : List (List Int)) (budget : Nat) :
    ∀ fuel cursor out, budget * 4 + 1 ≤ fuel + cursor → cursor ≤ budget * 4 →
      partitionGo pvals budget fuel cursor out =
        (List.range' cursor (budget * 4 + 1 - cursor)).foldl
          (fun o c => push_unique o (tupleAt pvals c) budget) out := by
  intro fuel
  induction fuel with
  | zero => intro cursor out hf hc; exact absurd hf (by omega)
  | succ n ih =>
    intro cursor out hf hc
    unfold partitionGo
    have hlen : budget * 4 + 1 - cursor = (budget * 4 - cursor) + 1 := by omega
    rw [hlen, List.range'_succ]
    by_cases hout : out.length < budget
    · rw [if_pos hout]
      dsimp only
      by_cases hcur : budget * 4 < cursor + 1
      · rw [if_pos hcur]
        have h0 : budget * 4 - cursor = 0 := by omega
        rw [h0]
        rfl
      · rw [if_neg hcur]
        rw [ih (cursor + 1) _ (by omega) (by omega)]
        have heq : budget * 4 + 1 - (cursor + 1) = budget * 4 - cursor := by omega
        rw [heq]
        rfl
    · rw [if_neg hout]
      symm
      exact foldl_push_unique_full pvals budget out (by omega) _

/-- C2 (amended): for a non-empty spec list, the partition phase equals
the fold, over cursors `c = 0, 1, …, 4·P`, of pushing the tuple whose
field `i` takes `partition_points(spec_i)[(c+i) mod len]` — where a push
adds the tuple only while the *total* seeded list (edge cases included)
is still below `P` and the tuple is not already present.  Hence the loop
stops exactly when the total seeded list reaches `P` entries or when the
cursor exceeds `4·P` steps, whichever happens first. -/
theorem extend_partition_cases_eq_fold (out : List (List Int)) (specs : List ParsedInput)
    (budget : Nat) (hspecs : specs ≠ []) :
    extend_partition_cases out specs budget =
      (List.range (budget * 4 + 1)).foldl
        (fun o c => push_unique o (tupleAt (specs.map partition_points) c) budget) out := by
  unfold extend_partition_cases
  by_cases hb : budget = 0
  · subst hb
    rw [if_pos (Or.inl rfl)]
    symm
    exact foldl_push_unique_full _ 0 out (Nat.zero_le _) _
  · rw [if_neg (by simp [hb, hspecs])]
    rw [partitionGo_eq_fold (specs.map partition_points) budget (budget * 4 + 1) 0 out
      (by omega) (by omega)]
    rw [List.range_eq_range']
    rfl

/-- C2 witness: the amended fold characterization instantiated at the
single field `[0, 10]` with budget `2` and an empty prior list. -/
theorem extend_partition_cases_eq_fold_witness :
    extend_partition_cases [] [⟨0, 10⟩] 2 =
      (List.range (2 * 4 + 1)).foldl
        (fun o c => push_unique o (tupleAt ([⟨0, 10⟩].map partition_points) c) 2) [] :=
  extend_partition_cases_eq_fold [] [⟨0, 10⟩] 2 (by decide)

/-- C2 counterexample: over the single field `[0, 10]` with edge budget
`E = 3` (as for `N = 10`, `edge_case_ratio = 0.3`) the edge phase yields
three tuples; with partition budget `P = 2` (`partition_ratio = 0.2`) the
code adds *no* partition tuple — its budget counts the whole seeded list
— while the claimed rule, which counts partition tuples added in this
phase, would add `(2)` and `(7)`.  The two stopping disciplines produce
different corpora. -/
theorem extend_partition_cases_claim_counterexample :
    extend_edge_cases [] [⟨0, 10⟩] 3 128 = [[5], [0], [10]] ∧
      extend_partition_cases [[5], [0], [10]] [⟨0, 10⟩] 2 = [[5], [0], [10]] ∧
      partition_phase_claim [[5], [0], [10]] [⟨0, 10⟩] 2 = [[5], [0], [10], [2], [7]] ∧
      extend_partition_cases [[5], [0], [10]] [⟨0, 10⟩] 2 ≠
        partition_phase_claim [[5], [0], [10]] [⟨0, 10⟩] 2 :=
  ⟨by decide, by decide, by decide, by decide⟩

/-! ### C8: monotonicity of the constraint parser -/

/-- Helper: unfolding equation of `splitBy` on a cons cell. -/
theorem splitBy_cons (p : Char → Bool) (c : Char) (l : List Char) :
    splitBy p (c :: l) =
      if p c then [] :: splitBy p l
      else (c :: (splitBy p l).headD []) :: (splitBy p l).tail := rfl

/-- Helper: `splitBy` never returns the empty list of pieces. -/
theorem splitBy_ne_nil (p : Char → Bool) : ∀ l, splitBy p l ≠ [] := by
  intro l
  cases l with
  | nil => simp [splitBy]
  | cons c rest =>
    rw [splitBy_cons]
    split
    · simp
    · simp

/-- Helper: splitting distributes over a separator occurrence. -/
theorem splitBy_append_sep (p : Char → Bool) (c : Char) (hc : p c = true) :
    ∀ a b, splitBy p (a ++ c :: b) = splitBy p a ++ splitBy p b := by
  intro a
  induction a with
  | nil =>
    intro b
    rw [List.nil_append, splitBy_cons, if_pos hc]
    rfl
  | cons ch a' ih =>
    intro b
    rw [List.cons_append, splitBy_cons p ch (a' ++ c :: b), splitBy_cons p ch a', ih b]
    by_cases hch : p ch
    · rw [if_pos hch, if_pos hch]
      rfl
    · rw [if_neg hch, if_neg hch]
      cases ha' : splitBy p a' with
      | nil => exact absurd ha' (splitBy_ne_nil p a')
      | cons h t => simp

/-- Helper: a piece containing no separators splits into itself. -/
theorem splitBy_no_sep (p : Char → Bool) :
    ∀ l, (∀ c ∈ l, p c = false) → splitBy p l = [l] := by
  intro l
  induction l with
  | nil => intro _; rfl
  | cons ch rest ih =>
    intro h
    rw [splitBy_cons, if_neg (by simp [h ch (by simp)]), ih (fun c hc => h c (by simp [hc]))]
    rfl

/-- Helper: `parse_bounds` in terms of the token fold over the `range`
string (with `none` behaving as the empty range). -/
theorem parse_bounds_eq_fold (spec : InputSpec) :
    parse_bounds spec =
      (applyTokens (spec.min.getD (-100), spec.max.getD 100)
          (splitBy isRangeSep (spec.range.getD []))).bind
        (fun mm => if mm.1 > mm.2 then Except.error "invalid bounds: min > max"
          else Except.ok mm) := by
  cases hr : spec.range with
  | none => unfold parse_bounds; rw [hr]; rfl
  | some r => unfold parse_bounds; rw [hr]; rfl

/-- C8 (amended): appending one further token to the `range` expression
never widens the interval — `lo` never decreases and `hi` never increases
— provided the appended token is not an `==` token (`== v` overrides both
bounds to `v` and can widen); and any range whose token fold drives
`lo > hi` makes `parse_bounds` fail. -/
theorem parse_bounds_append_token_narrows :
    (∀ (spec : InputSpec) (range tok : List Char) (op : CmpOp) (v : Int) (lo hi lo' hi' : Int),
      spec.range = some range →
      parse_constraint (trimWs tok) = some (op, v) →
      op ≠ CmpOp.eq →
      (∀ c ∈ tok, isRangeSep c = false) →
      parse_bounds spec = Except.ok (lo, hi) →
      parse_bounds { spec with range := some (range ++ ',' :: tok) } = Except.ok (lo', hi') →
      lo ≤ lo' ∧ hi' ≤ hi) ∧
    (∀ (spec : InputSpec) (mm : Int × Int),
      applyTokens (spec.min.getD (-100), spec.max.getD 100)
          (splitBy isRangeSep (spec.range.getD [])) = Except.ok mm →
      mm.1 > mm.2 → ∃ e, parse_bounds spec = Except.error e) := by
  constructor
  · intro spec range tok op v lo hi lo' hi' hr htok hne hsep h1 h2
    rw [parse_bounds_eq_fold] at h1 h2
    rw [hr] at h1
    simp only [Option.getD_some] at h1 h2
    cases hA : applyTokens (spec.min.getD (-100), spec.max.getD 100)
        (splitBy isRangeSep range) with
    | error e =>
      rw [hA] at h1
      exact absurd h1 (by simp [Except.bind])
    | ok mm =>
      rw [hA] at h1
      simp only [Except.bind] at h1
      have hmm : mm = (lo, hi) := by
        by_cases hgt : mm.1 > mm.2
        · rw [if_pos hgt] at h1
          exact absurd h1 (by simp)
        · rw [if_neg hgt] at h1
          injection h1
      subst hmm
      have hsplit : splitBy isRangeSep (range ++ ',' :: tok) =
          splitBy isRangeSep range ++ [tok] := by
        rw [splitBy_append_sep isRangeSep ',' rfl, splitBy_no_sep isRangeSep tok hsep]
      rw [hsplit] at h2
      unfold applyTokens at h2 hA
      rw [List.foldlM_append] at h2
      rw [hA] at h2
      have htne : trimWs tok ≠ [] := by
        intro hnil
        rw [hnil, show parse_constraint [] = none from rfl] at htok
        exact absurd htok (by simp)
      simp only [List.foldlM_cons, List.foldlM_nil, if_neg htne, htok, Except.bind, pure,
        Except.pure] at h2
      have h2' : (if (applyConstraint (lo, hi) (op, v)).1 >
            (applyConstraint (lo, hi) (op, v)).2
          then (Except.error "invalid bounds: min > max" : Except String (Int × Int))
          else Except.ok (applyConstraint (lo, hi) (op, v))) = Except.ok (lo', hi') := h2
      have hval : applyConstraint (lo, hi) (op, v) = (lo', hi') := by
        by_cases hgt : (applyConstraint (lo, hi) (op, v)).1 >
            (applyConstraint (lo, hi) (op, v)).2
        · rw [if_pos hgt] at h2'
          exact absurd h2' (by simp)
        · rw [if_neg hgt] at h2'
          injection h2' 
      cases op with
      | lt =>
        have heq : (lo, min hi (v - 1)) = (lo', hi') := hval
        injection heq with ha hb
        subst ha
        subst hb
        exact ⟨le_refl lo, min_le_left hi (v - 1)⟩
      | le =>
        have heq : (lo, min hi v) = (lo', hi') := hval
        injection heq with ha hb
        subst ha
        subst hb
        exact ⟨le_refl lo, min_le_left hi v⟩
      | gt =>
        have heq : (max lo (v + 1), hi) = (lo', hi') := hval
        injection heq with ha hb
        subst ha
        subst hb
        exact ⟨le_max_left lo (v + 1), le_refl hi⟩
      | ge =>
        have heq : (max lo v, hi) = (lo', hi') := hval
        injection heq with ha hb
        subst ha
        subst hb
        exact ⟨le_max_left lo v, le_refl hi⟩
      | eq => exact absurd rfl hne
  · intro spec mm hA hgt
    refine ⟨"invalid bounds: min > max", ?_⟩
    rw [parse_bounds_eq_fold, hA]
    simp [Except.bind, hgt]

/-- C8 witness: both parts of the amended theorem at concrete ranges —
appending `>= 1` to `<=9` narrows `(-100, 9)` to `(1, 9)`, and the
contradictory fold result `(5, 3)` of `>=5,<=3` makes `parse_bounds`
fail. -/
theorem parse_bounds_append_token_narrows_witness :
    ((-100 : Int) ≤ 1 ∧ (9 : Int) ≤ 9) ∧
      (∃ e, parse_bounds ⟨"integer", some (">=5,<=3".toList), none, none⟩ =
        Except.error e) :=
  ⟨parse_bounds_append_token_narrows.1 ⟨"integer", some ("<=9".toList), none, none⟩
      ("<=9".toList) (">= 1".toList) CmpOp.ge 1 (-100) 9 1 9 rfl (by decide) (by decide)
      (by decide) (by rfl) (by rfl),
    parse_bounds_append_token_narrows.2 ⟨"integer", some (">=5,<=3".toList), none, none⟩
      (5, 3) (by rfl) (by decide)⟩

/-- C8 counterexample: an appended `==` token can widen the interval —
`<=3` parses to `(-100, 3)` but `<=3,==7` parses to `(7, 7)`, raising the
upper bound from `3` to `7`, so the claim's "appending any additional
token never widens" is false on the code. -/
theorem parse_bounds_eq_token_widens :
    parse_bounds ⟨"integer", some ("<=3".toList), none, none⟩ = Except.ok (-100, 3) ∧
      parse_bounds ⟨"integer", some ("<=3,==7".toList), none, none⟩ = Except.ok (7, 7) ∧
      "<=3,==7".toList = "<=3".toList ++ ',' :: "==7".toList ∧
      ¬ ((7 : Int) ≤ 3) :=
  ⟨by rfl, by rfl, by decide, by decide⟩

/-! ### C3: every emitted value lies in its field's interval -/

/-- Helper: `getD` under `map`, in range. -/
theorem getD_map_lt {α β : Type} (f : α → β) (l : List α) (i : Nat) (d : α) (d' : β)
    (h : i < l.length) : (l.map f).getD i d' = f (l.getD i d) := by
  rw [List.getD_eq_getElem?_getD, List.getD_eq_getElem?_getD, List.getElem?_map,
    List.getElem?_eq_getElem h]
  rfl

/-- Helper: `getD` at an in-range index is list membership. -/
theorem getD_mem {α : Type} (l : List α) (i : Nat) (d : α) (h : i < l.length) :
    l.getD i d ∈ l := by
  rw [List.getD_eq_getElem?_getD, List.getElem?_eq_getElem h]
  exact List.getElem_mem h

/-- Helper: membership in `sortedInsert`. -/
theorem mem_sortedInsert (x y : Int) : ∀ l, (y ∈ sortedInsert x l ↔ y = x ∨ y ∈ l) := by
  intro l
  induction l with
  | nil => simp [sortedInsert]
  | cons z zs ih =>
    unfold sortedInsert
    split
    · simp only [List.mem_cons]
    · split
      · next heq =>
        subst heq
        simp only [List.mem_cons]
        tauto
      · simp only [List.mem_cons, ih]
        tauto

/-- Helper: `sortedSet` has exactly the members of its input list. -/
theorem mem_sortedSet (l : List Int) (y : Int) : y ∈ sortedSet l ↔ y ∈ l := by
  have general : ∀ (l : List Int) (acc : List Int),
      (y ∈ l.foldl (fun acc x => sortedInsert x acc) acc ↔ y ∈ acc ∨ y ∈ l) := by
    intro l
    induction l with
    | nil => intro acc; simp
    | cons x xs ih =>
      intro acc
      rw [List.foldl_cons, ih (sortedInsert x acc), mem_sortedInsert]
      simp
      tauto
  unfold sortedSet
  rw [general l []]
  simp

/-- Helper: `interpolate` stays inside `[lo, hi]` for a proper fraction. -/
theorem interpolate_bounds (lo hi num den : Int) (hlohi : lo ≤ hi) (hnum : 0 ≤ num)
    (hle : num ≤ den) (hden : 0 < den) :
    lo ≤ interpolate lo hi num den ∧ interpolate lo hi num den ≤ hi := by
  unfold interpolate
  have hdelta : 0 ≤ hi - lo := by omega
  have htdiv : ((hi - lo) * num).tdiv den = ((hi - lo) * num) / den :=
    Int.tdiv_eq_ediv (mul_nonneg hdelta hnum) (le_of_lt hden)
  rw [htdiv]
  constructor
  · have : 0 ≤ (hi - lo) * num / den := Int.ediv_nonneg (mul_nonneg hdelta hnum) (le_of_lt hden)
    omega
  · have hmono : (hi - lo) * num / den ≤ (hi - lo) * den / den :=
      Int.ediv_le_ediv hden (mul_le_mul_of_nonneg_left hle hdelta)
    rw [Int.mul_ediv_cancel (hi - lo) (by omega)] at hmono
    omega

/-- Helper: midpoints stay inside the interval. -/
theorem midpoint_bounds (lo hi : Int) (h : lo ≤ hi) :
    lo ≤ midpoint lo hi ∧ midpoint lo hi ≤ hi :=
  interpolate_bounds lo hi 1 2 h (by omega) (by omega) (by omega)

/-- Helper: edge values lie inside the interval. -/
theorem edge_values_bounds (spec : ParsedInput) (x : Int) (hx : x ∈ edge_values spec) :
    spec.min ≤ x ∧ x ≤ spec.max := by
  unfold edge_values at hx
  rw [mem_sortedSet] at hx
  rw [List.mem_filter] at hx
  have := hx.2
  simp only [decide_eq_true_eq] at this
  exact this

/-- Helper: partition points lie inside the interval of a valid spec. -/
theorem partition_points_bounds (spec : ParsedInput) (hv : spec.min ≤ spec.max) (x : Int)
    (hx : x ∈ partition_points spec) : spec.min ≤ x ∧ x ≤ spec.max := by
  unfold partition_points at hx
  rw [mem_sortedSet] at hx
  rw [List.mem_append] at hx
  cases hx with
  | inl h =>
    simp only [List.mem_cons, List.mem_singleton, List.not_mem_nil, or_false] at h
    rcases h with h | h | h | h | h
    · subst h; exact ⟨le_refl _, hv⟩
    · subst h; exact interpolate_bounds _ _ _ _ hv (by omega) (by omega) (by omega)
    · subst h; exact midpoint_bounds _ _ hv
    · subst h; exact interpolate_bounds _ _ _ _ hv (by omega) (by omega) (by omega)
    · subst h; exact ⟨hv, le_refl _⟩
  | inr h =>
    split at h
    · next hzero =>
      simp only [List.mem_singleton] at h
      subst h
      exact hzero
    · exact absurd h (List.not_mem_nil x)

/-- Helper: the partition point list is never empty. -/
theorem partition_points_ne_nil (spec : ParsedInput) : partition_points spec ≠ [] := by
  intro hnil
  have : spec.min ∈ partition_points spec := by
    unfold partition_points
    rw [mem_sortedSet]
    simp
  rw [hnil] at this
  exact absurd this (List.not_mem_nil _)

/-- Helper: a member of `push_unique` comes from the list or is the pushed
tuple. -/
theorem push_unique_mem (out : List (List Int)) (v t : List Int) (budget : Nat)
    (h : t ∈ push_unique out v budget) : t ∈ out ∨ t = v := by
  unfold push_unique at h
  split at h
  · exact Or.inl h
  · split at h
    · exact Or.inl h
    · rw [List.mem_append] at h
      cases h with
      | inl h => exact Or.inl h
      | inr h => exact Or.inr (by simpa using h)

/-- Helper: a fold step that takes its element from the list preserves a
property. -/
theorem foldl_preserve_mem {α β : Type} {P : β → Prop} (f : β → α → β) (l : List α)
    (hf : ∀ b a, a ∈ l → P b → P (f b a)) : ∀ b, P b → P (List.foldl f b l) := by
  induction l with
  | nil => intro b hb; exact hb
  | cons a l ih =>
    intro b hb
    exact ih (fun b' a' ha' hb' => hf b' a' (by simp [ha']) hb') (f b a)
      (hf b a (by simp) hb)

/-- Helper: a spec drawn by index is a member of the list. -/
theorem specAt_mem (specs : List ParsedInput) (i : Nat) (h : i < specs.length) :
    specAt specs i ∈ specs := getD_mem specs i ⟨0, 0⟩ h

/-- Helper: tuples built by mapping a per-field bound-respecting function
are in range. -/
theorem inRange_map (specs : List ParsedInput) (f : ParsedInput → Int)
    (hf : ∀ s ∈ specs, s.min ≤ f s ∧ f s ≤ s.max) : InRange specs (specs.map f) := by
  constructor
  · exact List.length_map specs f
  · intro i hi
    rw [getD_map_lt f specs i ⟨0, 0⟩ 0 hi]
    exact hf (specAt specs i) (specAt_mem specs i hi)

/-- Helper: tuples built from the enumerated spec list by an
index-dependent bound-respecting function are in range. -/
theorem inRange_enum_map (specs : List ParsedInput) (g : Nat × ParsedInput → Int)
    (hg : ∀ i, i < specs.length →
      (specAt specs i).min ≤ g (i, specAt specs i) ∧
        g (i, specAt specs i) ≤ (specAt specs i).max) :
    InRange specs (specs.enum.map g) := by
  constructor
  · rw [List.length_map, List.enum_length]
  · intro i hi
    have hlen : i < specs.enum.length := by rw [List.enum_length]; exact hi
    rw [getD_map_lt g specs.enum i (0, ⟨0, 0⟩) 0 hlen]
    have henum : specs.enum.getD i (0, ⟨0, 0⟩) = (i, specAt specs i) := by
      rw [List.getD_eq_getElem?_getD, List.getElem?_eq_getElem hlen]
      simp only [Option.getD_some]
      rw [List.getElem_enum]
      unfold specAt
      rw [List.getD_eq_getElem?_getD, List.getElem?_eq_getElem hi]
      rfl
    rw [henum]
    exact hg i hi

/-- Helper: replacing one position of an in-range tuple with a value in
that field's interval stays in range. -/
theorem inRange_set (specs : List ParsedInput) (base : List Int) (idx : Nat) (e : Int)
    (hbase : InRange specs base)
    (he : (specAt specs idx).min ≤ e ∧ e ≤ (specAt specs idx).max) :
    InRange specs (base.set idx e) := by
  obtain ⟨hlen, hval⟩ := hbase
  constructor
  · rw [List.length_set]
    exact hlen
  · intro i hi
    have hib : i < (base.set idx e).length := by rw [List.length_set, hlen]; exact hi
    rw [List.getD_eq_getElem?_getD, List.getElem?_eq_getElem hib, Option.getD_some,
      List.getElem_set]
    split
    · next heq => subst heq; exact he
    · have hiB : i < base.length := by rw [hlen]; exact hi
      have := hval i hi
      rw [List.getD_eq_getElem?_getD, List.getElem?_eq_getElem hiB, Option.getD_some] at this
      exact this

/-- Helper: the cursor tuple of the partition phase is in range. -/
theorem tupleAt_inRange (specs : List ParsedInput) (cursor : Nat)
    (hvalid : ∀ s ∈ specs, s.min ≤ s.max) :
    InRange specs (tupleAt (specs.map partition_points) cursor) := by
  unfold tupleAt
  have hplen : (specs.map partition_points).length = specs.length := List.length_map _ _
  constructor
  · rw [List.length_map, List.enum_length, hplen]
  · intro i hi
    have hie : i < (specs.map partition_points).enum.length := by
      rw [List.enum_length, hplen]; exact hi
    rw [getD_map_lt _ _ i (0, []) 0 hie]
    have henum : (specs.map partition_points).enum.getD i (0, []) =
        (i, partition_points (specAt specs i)) := by
      rw [List.getD_eq_getElem?_getD, List.getElem?_eq_getElem hie, Option.getD_some,
        List.getElem_enum]
      have him : i < (specs.map partition_points).length := by rw [hplen]; exact hi
      have : (specs.map partition_points)[i] =
          partition_points (specAt specs i) := by
        rw [List.getElem_map]
        unfold specAt
        rw [List.getD_eq_getElem?_getD, List.getElem?_eq_getElem hi]
        rfl
      rw [this]
    rw [henum]
    have hne : partition_points (specAt specs i) ≠ [] :=
      partition_points_ne_nil (specAt specs i)
    have hlenpos : 0 < (partition_points (specAt specs i)).length :=
      List.length_pos.mpr hne
    have hidx : (cursor + i) % (partition_points (specAt specs i)).length <
        (partition_points (specAt specs i)).length := Nat.mod_lt _ hlenpos
    have hmem : (partition_points (specAt specs i)).getD
        ((cursor + i) % (partition_points (specAt specs i)).length) 0 ∈
        partition_points (specAt specs i) := getD_mem _ _ _ hidx
    exact partition_points_bounds (specAt specs i)
      (hvalid (specAt specs i) (specAt_mem specs i hi)) _ hmem

/-- Helper: the single-field sweep inner loop only adds in-range
tuples. -/
theorem edgeSinglesInner_inRange (specs : List ParsedInput) (mids : List Int)
    (idx budget : Nat) :
    ∀ es out, (∀ e ∈ es, InRange specs (mids.set idx e)) →
      (∀ t ∈ out, InRange specs t) →
      ∀ t ∈ (edgeSinglesInner mids idx budget es out).1, InRange specs t := by
  intro es
  induction es with
  | nil => intro out _ hout; exact hout
  | cons e es ih =>
    intro out hes hout
    have hout' : ∀ t ∈ push_unique out (mids.set idx e) budget, InRange specs t := by
      intro t ht
      cases push_unique_mem out (mids.set idx e) t budget ht with
      | inl h => exact hout t h
      | inr h => rw [h]; exact hes e (by simp)
    show ∀ t ∈ (if budget ≤ (push_unique out (mids.set idx e) budget).length
        then (push_unique out (mids.set idx e) budget, true)
        else edgeSinglesInner mids idx budget es
          (push_unique out (mids.set idx e) budget)).1, InRange specs t
    split
    · exact hout'
    · exact ih _ (fun e' he' => hes e' (by simp [he'])) hout'

/-- Helper: a member of the enumerated spec list is its indexed spec. -/
theorem mem_enum_specAt (specs : List ParsedInput) (pr : Nat × ParsedInput)
    (h : pr ∈ specs.enum) : pr.1 < specs.length ∧ pr.2 = specAt specs pr.1 := by
  rw [List.mem_iff_getElem] at h
  obtain ⟨n, hn, hg⟩ := h
  have hn' : n < specs.length := by
    rw [List.enum_length] at hn
    exact hn
  rw [List.getElem_enum] at hg
  subst hg
  refine ⟨hn', ?_⟩
  unfold specAt
  rw [List.getD_eq_getElem?_getD, List.getElem?_eq_getElem hn']
  rfl

/-- Helper: the single-field sweep only adds in-range tuples. -/
theorem edgeSingles_inRange (specs : List ParsedInput) (mids : List Int) (budget : Nat) :
    ∀ pairs out,
      (∀ pr ∈ pairs, ∀ e ∈ edge_values pr.2, InRange specs (mids.set pr.1 e)) →
      (∀ t ∈ out, InRange specs t) →
      ∀ t ∈ (edgeSingles mids budget pairs out).1, InRange specs t := by
  intro pairs
  induction pairs with
  | nil => intro out _ hout; exact hout
  | cons pr rest ih =>
    intro out hpairs hout
    obtain ⟨idx, spec⟩ := pr
    have hinner := edgeSinglesInner_inRange specs mids idx budget (edge_values spec) out
      (fun e he => hpairs (idx, spec) (by simp) e he) hout
    show ∀ t ∈ (match edgeSinglesInner mids idx budget (edge_values spec) out with
      | (out', true) => (out', true)
      | (out', false) => edgeSingles mids budget rest out').1, InRange specs t
    cases hsi : edgeSinglesInner mids idx budget (edge_values spec) out with
    | mk out' stopped =>
      rw [hsi] at hinner
      cases stopped
      · exact ih out' (fun pr' hpr' => hpairs pr' (by simp [hpr'])) hinner
      · exact hinner

/-- Helper: the Cartesian enumeration only adds in-range tuples. -/
theorem cartesian_collect_inRange (specs : List ParsedInput) (budget : Nat) :
    ∀ sets stack out,
      (∀ t ∈ out, InRange specs t) →
      (∀ completion, completion.length = sets.length →
        (∀ j, j < sets.length → completion.getD j 0 ∈ sets.getD j []) →
        InRange specs (stack ++ completion)) →
      ∀ t ∈ cartesian_collect budget sets stack out, InRange specs t := by
  intro sets
  induction sets with
  | nil =>
    intro stack out hout hstack
    unfold cartesian_collect
    split
    · exact hout
    · intro t ht
      cases push_unique_mem out stack t budget ht with
      | inl h => exact hout t h
      | inr h =>
        rw [h]
        have := hstack [] rfl (by intro j hj; exact absurd hj (by simp))
        simpa using this
  | cons es rest ih =>
    intro stack out hout hstack
    unfold cartesian_collect
    split
    · exact hout
    · refine @foldl_preserve_mem _ _ (fun o => ∀ t ∈ o, InRange specs t) _ es ?_ out hout
      intro o v hv ho
      dsimp only
      split
      · exact ho
      · refine ih (stack ++ [v]) o ho ?_
        intro completion hclen hcval
        rw [List.append_assoc]
        refine hstack (v :: completion) (by simp [hclen]) ?_
        intro j hj
        cases j with
        | zero => simpa using hv
        | succ j' =>
          have hj' : j' < rest.length := by simpa using hj
          have := hcval j' hj'
          simpa using this

/-- Helper: the partition loop only adds in-range tuples. -/
theorem partitionGo_inRange (specs : List ParsedInput) (budget : Nat)
    (hvalid : ∀ s ∈ specs, s.min ≤ s.max) :
    ∀ fuel cursor out, (∀ t ∈ out, InRange specs t) →
      ∀ t ∈ partitionGo (specs.map partition_points) budget fuel cursor out,
        InRange specs t := by
  intro fuel
  induction fuel with
  | zero => intro cursor out hout; exact hout
  | succ n ih =>
    intro cursor out hout
    unfold partitionGo
    have hout' : ∀ t ∈ push_unique out (tupleAt (specs.map partition_points) cursor) budget,
        InRange specs t := by
      intro t ht
      cases push_unique_mem _ _ t _ ht with
      | inl h => exact hout t h
      | inr h => rw [h]; exact tupleAt_inRange specs cursor hvalid
    split
    · split
      · exact hout'
      · exact ih _ _ hout'
    · exact hout

/-- Helper: the edge phase only adds in-range tuples. -/
theorem extend_edge_cases_inRange (out : List (List Int)) (specs : List ParsedInput)
    (budget maxc : Nat) (hvalid : ∀ s ∈ specs, s.min ≤ s.max)
    (hout : ∀ t ∈ out, InRange specs t) :
    ∀ t ∈ extend_edge_cases out specs budget maxc, InRange specs t := by
  unfold extend_edge_cases
  split
  · exact hout
  · dsimp only
    have hmids : InRange specs (specs.map fun s => midpoint s.min s.max) :=
      inRange_map specs _ (fun s hs => midpoint_bounds s.min s.max (hvalid s hs))
    have hmins : InRange specs (specs.map fun s => s.min) :=
      inRange_map specs _ (fun s hs => ⟨le_refl _, hvalid s hs⟩)
    have hmaxs : InRange specs (specs.map fun s => s.max) :=
      inRange_map specs _ (fun s hs => ⟨hvalid s hs, le_refl _⟩)
    have halt1 : InRange specs (altMinMax specs) := by
      refine inRange_enum_map specs _ ?_
      intro i hi
      dsimp only
      split
      · exact ⟨le_refl _, hvalid _ (specAt_mem specs i hi)⟩
      · exact ⟨hvalid _ (specAt_mem specs i hi), le_refl _⟩
    have halt2 : InRange specs (altMaxMin specs) := by
      refine inRange_enum_map specs _ ?_
      intro i hi
      dsimp only
      split
      · exact ⟨hvalid _ (specAt_mem specs i hi), le_refl _⟩
      · exact ⟨le_refl _, hvalid _ (specAt_mem specs i hi)⟩
    have hof : ∀ (o : List (List Int)) (v : List Int), (∀ t ∈ o, InRange specs t) →
        InRange specs v → ∀ t ∈ push_unique o v budget, InRange specs t := by
      intro o v ho hv t ht
      cases push_unique_mem o v t budget ht with
      | inl h => exact ho t h
      | inr h => rw [h]; exact hv
    have h5 := hof _ _ (hof _ _ (hof _ _ (hof _ _ (hof _ _ hout hmids) hmins) hmaxs) halt1)
      halt2
    have hpairs : ∀ pr ∈ specs.enum, ∀ e ∈ edge_values pr.2,
        InRange specs ((specs.map fun s => midpoint s.min s.max).set pr.1 e) := by
      intro pr hpr e he
      obtain ⟨hlt, heq⟩ := mem_enum_specAt specs pr hpr
      refine inRange_set specs _ pr.1 e hmids ?_
      rw [← heq]
      exact edge_values_bounds pr.2 e he
    have hsingles := edgeSingles_inRange specs (specs.map fun s => midpoint s.min s.max)
      budget specs.enum _ hpairs h5
    cases hs : edgeSingles (specs.map fun s => midpoint s.min s.max) budget specs.enum
        (push_unique (push_unique (push_unique (push_unique (push_unique out
          (specs.map fun s => midpoint s.min s.max) budget)
          (specs.map fun s => s.min) budget)
          (specs.map fun s => s.max) budget)
          (altMinMax specs) budget)
          (altMaxMin specs) budget) with
    | mk out6 stopped =>
      rw [hs] at hsingles
      cases stopped
      · dsimp only
        split
        · exact hsingles
        · refine cartesian_collect_inRange specs budget (specs.map edge_values) [] out6
            hsingles ?_
          intro completion hclen hcval
          rw [List.nil_append]
          constructor
          · rw [hclen, List.length_map]
          · intro i hi
            have hil : i < (specs.map edge_values).length := by
              rw [List.length_map]; exact hi
            have hmem := hcval i hil
            rw [getD_map_lt edge_values specs i ⟨0, 0⟩ [] hi] at hmem
            exact edge_values_bounds (specAt specs i) _ hmem
      · exact hsingles

/-- Helper: the partition phase only adds in-range tuples. -/
theorem extend_partition_cases_inRange (out : List (List Int)) (specs : List ParsedInput)
    (budget : Nat) (hvalid : ∀ s ∈ specs, s.min ≤ s.max)
    (hout : ∀ t ∈ out, InRange specs t) :
    ∀ t ∈ extend_partition_cases out specs budget, InRange specs t := by
  unfold extend_partition_cases
  split
  · exact hout
  · exact partitionGo_inRange specs budget hvalid _ _ _ hout

/-- Helper: one uniform draw lies in a valid interval. -/
theorem drawValue_bounds (s : Nat) (lo hi : Int) (h : lo ≤ hi) :
    lo ≤ drawValue s lo hi ∧ drawValue s lo hi ≤ hi := by
  unfold drawValue
  have hcast : ((hi + 1 - lo).toNat : Int) = hi + 1 - lo := Int.toNat_of_nonneg (by omega)
  have hnz : 0 < (hi + 1 - lo).toNat := by
    have hpos : (0 : Int) < ((hi + 1 - lo).toNat : Int) := by rw [hcast]; omega
    exact_mod_cast hpos
  have hmod : s % (hi + 1 - lo).toNat < (hi + 1 - lo).toNat := Nat.mod_lt s hnz
  have h1 : (0 : Int) ≤ ((s % (hi + 1 - lo).toNat : Nat) : Int) := Int.natCast_nonneg _
  have h2 : ((s % (hi + 1 - lo).toNat : Nat) : Int) < ((hi + 1 - lo).toNat : Int) := by
    exact_mod_cast hmod
  rw [hcast] at h2
  omega

/-- Helper: a random tuple is in range for valid specs. -/
theorem drawTuple_inRange (specs : List ParsedInput)
    (hvalid : ∀ s ∈ specs, s.min ≤ s.max) :
    ∀ st, InRange specs (drawTuple specs st).1 := by
  induction specs with
  | nil => intro st; exact ⟨rfl, fun i hi => absurd hi (by simp)⟩
  | cons spec rest ih =>
    intro st
    have hrest := ih (fun s hs => hvalid s (by simp [hs])) (rngNext st)
    obtain ⟨hlen, hval⟩ := hrest
    constructor
    · show (drawValue (rngNext st) spec.min spec.max :: (drawTuple rest (rngNext st)).1).length =
        (spec :: rest).length
      simp [hlen]
    · intro i hi
      cases i with
      | zero =>
        show (specAt (spec :: rest) 0).min ≤ drawValue (rngNext st) spec.min spec.max ∧
          drawValue (rngNext st) spec.min spec.max ≤ (specAt (spec :: rest) 0).max
        exact drawValue_bounds (rngNext st) spec.min spec.max (hvalid spec (by simp))
      | succ i' =>
        have hi' : i' < rest.length := by simpa using hi
        have := hval i' hi'
        exact this

/-- Helper: every random case is in range for valid specs. -/
theorem randomGo_inRange (specs : List ParsedInput)
    (hvalid : ∀ s ∈ specs, s.min ≤ s.max) :
    ∀ count seed, ∀ t ∈ randomGo specs count seed, InRange specs t := by
  intro count
  induction count with
  | zero => intro seed t ht; exact absurd ht (by simp [randomGo])
  | succ n ih =>
    intro seed t ht
    unfold randomGo at ht
    rw [List.mem_cons] at ht
    cases ht with
    | inl h => rw [h]; exact drawTuple_inRange specs hvalid seed
    | inr h => exact ih _ t h

/-- C3: for every case a successful generator run produces — edge-case
tuples, partition tuples, and random tuples alike — each field's emitted
value lies within that field's closed interval `[lo, hi]`, provided every
parsed spec is valid (`min ≤ max`). -/
theorem generateTuples_values_in_range (specs : List ParsedInput) (cases seed : Nat)
    (pbt : Pbt) (out : List (List Int)) (hvalid : ∀ s ∈ specs, s.min ≤ s.max)
    (h : generateTuples specs cases seed pbt = Except.ok out) :
    ∀ t ∈ out, InRange specs t := by
  have hshape := generateTuples_ok_eq specs cases seed pbt out h
  subst hshape
  intro t ht
  rw [List.mem_append] at ht
  cases ht with
  | inl htake =>
    have hseed : t ∈ seeded_tuples specs cases pbt :=
      (List.take_sublist cases _).subset htake
    unfold seeded_tuples at hseed
    split at hseed
    · exact extend_partition_cases_inRange _ specs _ hvalid
        (extend_edge_cases_inRange [] specs _ _ hvalid (by simp)) t hseed
    · exact absurd hseed (by simp)
  | inr hrand =>
    exact randomGo_inRange specs hvalid _ _ t hrand

/-- C3 witness: a concrete run over the field `[1, 3]`. -/
theorem generateTuples_values_in_range_witness :
    ∃ out, generateTuples [⟨1, 3⟩] 2 7 pbtOff = Except.ok out ∧
      ∀ t ∈ out, InRange [⟨1, 3⟩] t :=
  ⟨[[3], [1]], rfl,
    generateTuples_values_in_range [⟨1, 3⟩] 2 7 pbtOff [[3], [1]] (by decide) rfl⟩

/-! ### C7: idempotence of the normalizer -/

/-- Helper: `headD` of a non-empty list is a member. -/
theorem headD_mem {α : Type} (l : List α) (d : α) (h : l ≠ []) : l.headD d ∈ l := by
  cases l with
  | nil => exact absurd rfl h
  | cons a as => simp

/-- Helper: the head of `dropWhile` fails the predicate. -/
theorem head?_dropWhile_false {α : Type} (q : α → Bool) :
    ∀ (l : List α) (c : α), (l.dropWhile q).head? = some c → q c = false := by
  intro l
  induction l with
  | nil => intro c h; exact absurd h (by simp)
  | cons a as ih =>
    intro c h
    rw [List.dropWhile_cons] at h
    split at h
    · exact ih c h
    · next hqa =>
      injection h with h
      subst h
      simpa using hqa

/-- Helper: `dropWhile` is idempotent. -/
theorem dropWhile_idem {α : Type} (q : α → Bool) :
    ∀ l : List α, (l.dropWhile q).dropWhile q = l.dropWhile q := by
  intro l
  induction l with
  | nil => rfl
  | cons a as ih =>
    rw [List.dropWhile_cons]
    split
    · exact ih
    · next hqa => rw [List.dropWhile_cons, if_neg hqa]

/-- Helper: right-stripping is idempotent. -/
theorem trimEndWs_idem (l : List Char) : trimEndWs (trimEndWs l) = trimEndWs l := by
  unfold trimEndWs
  rw [List.reverse_reverse, dropWhile_idem]

/-- Helper: stripping trailing newlines is idempotent. -/
theorem stripTrailingNl_idem (l : List Char) :
    stripTrailingNl (stripTrailingNl l) = stripTrailingNl l := by
  unfold stripTrailingNl
  rw [List.reverse_reverse, dropWhile_idem]

/-- Helper: the trimmed line is made of characters of the original. -/
theorem trimEndWs_subset (l : List Char) (c : Char) (h : c ∈ trimEndWs l) : c ∈ l := by
  unfold trimEndWs at h
  rw [List.mem_reverse] at h
  have := (List.dropWhile_sublist isWs).subset h
  rw [List.mem_reverse] at this
  exact this

/-- Helper: the last character of a right-stripped line is not
whitespace. -/
theorem trimEndWs_getLast_not_ws (l : List Char) (c : Char)
    (h : (trimEndWs l).getLast? = some c) : isWs c = false := by
  unfold trimEndWs at h
  rw [List.getLast?_reverse] at h
  exact head?_dropWhile_false isWs l.reverse c h

/-- Helper: a string not ending in a newline is unchanged by the final
strip. -/
theorem stripTrailingNl_of_getLast (l : List Char)
    (h : ∀ c, l.getLast? = some c → c ≠ '\n') : stripTrailingNl l = l := by
  unfold stripTrailingNl
  cases hrev : l.reverse with
  | nil =>
    have hnil : l = [] := by simpa using congrArg List.reverse hrev
    subst hnil
    rfl
  | cons a as =>
    have ha : a ≠ '\n' := by
      apply h
      rw [← List.head?_reverse, hrev]
      rfl
    have hd : List.dropWhile (fun x => x == '\n') (a :: as) = a :: as := by
      rw [List.dropWhile_cons, if_neg (by simpa using ha)]
    calc ((a :: as).dropWhile (fun x => x == '\n')).reverse
        = (a :: as).reverse := by rw [hd]
      _ = l.reverse.reverse := by rw [hrev]
      _ = l := List.reverse_reverse l

/-- Helper: the final strip removes a trailing newline. -/
theorem stripTrailingNl_concat_newline (x : List Char) :
    stripTrailingNl (x ++ ['\n']) = stripTrailingNl x := by
  unfold stripTrailingNl
  rw [List.reverse_append]
  rw [show (['\n'] : List Char).reverse ++ x.reverse = '\n' :: x.reverse by simp]
  rw [List.dropWhile_cons, if_pos (by simp)]

/-- Helper: a string is its final strip followed by the removed
newlines. -/
theorem stripTrailingNl_decomposition (l : List Char) :
    l = stripTrailingNl l ++ (l.reverse.takeWhile (· == '\n')).reverse := by
  unfold stripTrailingNl
  have h := @List.takeWhile_append_dropWhile _ (· == '\n') l.reverse
  calc l = l.reverse.reverse := by rw [List.reverse_reverse]
  _ = (l.reverse.takeWhile (· == '\n') ++ l.reverse.dropWhile (· == '\n')).reverse := by rw [h]
  _ = (l.reverse.dropWhile (· == '\n')).reverse ++ (l.reverse.takeWhile (· == '\n')).reverse := by
      rw [List.reverse_append]

/-- Helper: pieces produced by `splitBy` contain no separator. -/
theorem splitBy_pieces_no_sep (p : Char → Bool) :
    ∀ l x, x ∈ splitBy p l → ∀ c ∈ x, p c = false := by
  intro l
  induction l with
  | nil =>
    intro x hx c hc
    simp only [splitBy] at hx
    rw [List.mem_singleton] at hx
    subst hx
    exact absurd hc (by simp)
  | cons ch rest ih =>
    intro x hx c hc
    rw [splitBy_cons] at hx
    by_cases hch : p ch
    · rw [if_pos hch] at hx
      rw [List.mem_cons] at hx
      cases hx with
      | inl h => subst h; exact absurd hc (by simp)
      | inr h => exact ih x h c hc
    · rw [if_neg hch] at hx
      rw [List.mem_cons] at hx
      cases hx with
      | inl h =>
        subst h
        rw [List.mem_cons] at hc
        cases hc with
        | inl h => subst h; simpa using hch
        | inr h =>
          exact ih _ (headD_mem _ _ (splitBy_ne_nil p rest)) c h
      | inr h =>
        exact ih x ((List.tail_sublist (splitBy p rest)).subset h) c hc

/-- Helper: unfolding equation of `splitNl` on a cons cell, phrased with a
propositional newline test. -/
theorem splitNl_cons (c : Char) (l : List Char) :
    splitNl (c :: l) = if c = '\n' then [] :: splitNl l
      else (c :: (splitNl l).headD []) :: (splitNl l).tail := by
  show splitBy (fun c => c == '\n') (c :: l) = _
  rw [splitBy_cons]
  by_cases hc : c = '\n'
  · rw [if_pos (by simpa using hc), if_pos hc]
    rfl
  · rw [if_neg (by simpa using hc), if_neg hc]
    rfl

/-- Helper: `splitNl` never returns the empty piece list. -/
theorem splitNl_ne_nil (l : List Char) : splitNl l ≠ [] := splitBy_ne_nil _ l

/-- Helper: pieces of a newline split contain no newline. -/
theorem splitNl_pieces (l x : List Char) (hx : x ∈ splitNl l) : '\n' ∉ x := by
  intro hmem
  have := splitBy_pieces_no_sep _ l x hx '\n' hmem
  simp at this

/-- Helper: joining the pieces of a newline split restores the string. -/
theorem joinNl_splitNl : ∀ l, joinNl (splitNl l) = l := by
  intro l
  induction l with
  | nil => rfl
  | cons c rest ih =>
    rw [splitNl_cons]
    by_cases hc : c = '\n'
    · rw [if_pos hc]
      subst hc
      cases hr : splitNl rest with
      | nil => exact absurd hr (splitNl_ne_nil rest)
      | cons y t =>
        rw [hr] at ih
        show [] ++ '\n' :: joinNl (y :: t) = '\n' :: rest
        rw [List.nil_append, ih]
    · rw [if_neg hc]
      cases hr : splitNl rest with
      | nil => exact absurd hr (splitNl_ne_nil rest)
      | cons y t =>
        rw [hr] at ih
        cases t with
        | nil =>
          show joinNl [c :: y] = c :: rest
          show c :: y = c :: rest
          rw [show y = joinNl [y] from rfl, ih]
        | cons z t' =>
          show joinNl ((c :: y) :: z :: t') = c :: rest
          show (c :: y) ++ '\n' :: joinNl (z :: t') = c :: rest
          rw [List.cons_append]
          rw [show y ++ '\n' :: joinNl (z :: t') = joinNl (y :: z :: t') from rfl, ih]

/-- Helper: a newline-free string splits into a single piece. -/
theorem splitNl_single (x : List Char) (h : '\n' ∉ x) : splitNl x = [x] :=
  splitBy_no_sep _ x (fun c hc => by
    have : c ≠ '\n' := fun heq => h (heq ▸ hc)
    simpa using this)

/-- Helper: splitting after a newline-free prefix. -/
theorem splitNl_append_no_sep (x : List Char) (hx : '\n' ∉ x) :
    ∀ y, splitNl (x ++ y) = (x ++ (splitNl y).headD []) :: (splitNl y).tail := by
  induction x with
  | nil =>
    intro y
    rw [List.nil_append, List.nil_append]
    cases hy : splitNl y with
    | nil => exact absurd hy (splitNl_ne_nil y)
    | cons h t => rfl
  | cons c x' ih =>
    intro y
    have hc : c ≠ '\n' := fun heq => hx (by simp [heq])
    rw [List.cons_append, splitNl_cons, if_neg hc,
      ih (fun hmem => hx (by simp [hmem])) y]
    rfl

/-- Helper: splitting the join of newline-free pieces restores them. -/
theorem splitNl_joinNl : ∀ M, M ≠ [] → (∀ x ∈ M, '\n' ∉ x) →
    splitNl (joinNl M) = M := by
  intro M
  induction M with
  | nil => intro h _; exact absurd rfl h
  | cons x t ih =>
    intro _ hM
    cases t with
    | nil =>
      show splitNl (joinNl [x]) = [x]
      show splitNl x = [x]
      exact splitNl_single x (hM x (by simp))
    | cons y t' =>
      show splitNl (x ++ '\n' :: joinNl (y :: t')) = x :: y :: t'
      rw [splitNl_append_no_sep x (hM x (by simp))]
      have hstep : splitNl ('\n' :: joinNl (y :: t')) = [] :: splitNl (joinNl (y :: t')) := by
        rw [splitNl_cons, if_pos rfl]
      rw [hstep, ih (by simp) (fun z hz => hM z (by simp [hz]))]
      simp

/-- Helper: splitting after appending one newline adds one empty piece. -/
theorem splitNl_append_newline : ∀ x, splitNl (x ++ ['\n']) = splitNl x ++ [[]] := by
  intro x
  induction x with
  | nil =>
    show splitNl ['\n'] = [[]] ++ [[]]
    rw [splitNl_cons, if_pos rfl]
    rfl
  | cons c x' ih =>
    rw [List.cons_append, splitNl_cons, splitNl_cons, ih]
    by_cases hc : c = '\n'
    · rw [if_pos hc, if_pos hc]
      rfl
    · rw [if_neg hc, if_neg hc]
      cases hx' : splitNl x' with
      | nil => exact absurd hx' (splitNl_ne_nil x')
      | cons h t => simp

/-- Helper: unfolding equation of `replaceCrlf` on two leading
characters. -/
theorem replaceCrlf_cons2 (c c2 : Char) (r : List Char) :
    replaceCrlf (c :: c2 :: r) =
      if c = '\r' ∧ c2 = '\n' then '\n' :: replaceCrlf r
      else c :: replaceCrlf (c2 :: r) := rfl

/-- Helper: unfolding equation of `hasCrlf` on two leading characters. -/
theorem hasCrlf_cons2 (c c2 : Char) (r : List Char) :
    hasCrlf (c :: c2 :: r) =
      ((decide (c = '\r') && decide (c2 = '\n')) || hasCrlf (c2 :: r)) := rfl

/-- Helper: a CRLF-free string is a fixed point of `replaceCrlf`. -/
theorem replaceCrlf_eq_self : ∀ l, hasCrlf l = false → replaceCrlf l = l := by
  intro l
  induction l with
  | nil => intro _; rfl
  | cons c rest ih =>
    intro h
    cases rest with
    | nil => rfl
    | cons c2 r =>
      rw [hasCrlf_cons2] at h
      rw [Bool.or_eq_false_iff] at h
      obtain ⟨h1, h2⟩ := h
      have hcond : ¬ (c = '\r' ∧ c2 = '\n') := by
        intro ⟨ha, hb⟩
        subst ha
        subst hb
        simp at h1
      rw [replaceCrlf_cons2, if_neg hcond, ih h2]

/-- Helper: a newline-free string has no CRLF pair. -/
theorem hasCrlf_of_no_nl : ∀ l : List Char, '\n' ∉ l → hasCrlf l = false := by
  intro l
  induction l with
  | nil => intro _; rfl
  | cons c rest ih =>
    intro h
    cases rest with
    | nil => rfl
    | cons c2 r =>
      rw [hasCrlf_cons2]
      have hc2 : c2 ≠ '\n' := fun heq => h (by simp [heq])
      rw [ih (fun hmem => h (by simp [hmem]))]
      simp [hc2]

/-- Helper: a leading newline cannot open a CRLF pair. -/
theorem hasCrlf_nl_cons (y : List Char) : hasCrlf ('\n' :: y) = hasCrlf y := by
  cases y with
  | nil => rfl
  | cons c2 r =>
    rw [hasCrlf_cons2]
    simp

/-- Helper: a newline appended after a trimmed, newline-free line opens no
CRLF pair. -/
theorem hasCrlf_line_append : ∀ x : List Char, '\n' ∉ x →
    (∀ c, x.getLast? = some c → c ≠ '\r') →
    ∀ z, hasCrlf (x ++ '\n' :: z) = hasCrlf ('\n' :: z) := by
  intro x
  induction x with
  | nil => intro _ _ z; rfl
  | cons c x'' ih =>
    intro hnl hlast z
    cases x'' with
    | nil =>
      have hc : c ≠ '\r' := hlast c rfl
      show hasCrlf (c :: '\n' :: z) = hasCrlf ('\n' :: z)
      rw [hasCrlf_cons2]
      simp [hc]
    | cons c2 rest =>
      show hasCrlf (c :: c2 :: (rest ++ '\n' :: z)) = hasCrlf ('\n' :: z)
      rw [hasCrlf_cons2]
      have hc2 : c2 ≠ '\n' := fun heq => hnl (by simp [heq])
      have hih := ih (fun hmem => hnl (by simp [hmem]))
        (fun c' hc' => hlast c' (by rw [List.getLast?_cons_cons]; exact hc')) z
      rw [show c2 :: (rest ++ '\n' :: z) = (c2 :: rest) ++ '\n' :: z from rfl, hih]
      simp [hc2]

/-- Helper: joining trimmed, newline-free lines yields a CRLF-free
string. -/
theorem hasCrlf_joinNl : ∀ M : List (List Char),
    (∀ x ∈ M, '\n' ∉ x ∧ (∀ c, x.getLast? = some c → c ≠ '\r')) →
    hasCrlf (joinNl M) = false := by
  intro M
  induction M with
  | nil => intro _; rfl
  | cons x t ih =>
    intro hM
    cases t with
    | nil =>
      show hasCrlf x = false
      exact hasCrlf_of_no_nl x (hM x (by simp)).1
    | cons y t' =>
      show hasCrlf (x ++ '\n' :: joinNl (y :: t')) = false
      rw [hasCrlf_line_append x (hM x (by simp)).1 (hM x (by simp)).2,
        hasCrlf_nl_cons, ih (fun z hz => hM z (by simp [hz]))]

/-- Helper: a prefix of a CRLF-free string is CRLF-free. -/
theorem hasCrlf_append_left : ∀ a b : List Char, hasCrlf (a ++ b) = false →
    hasCrlf a = false := by
  intro a
  induction a with
  | nil => intro b _; rfl
  | cons c a'' ih =>
    intro b h
    cases a'' with
    | nil => rfl
    | cons c2 rest =>
      rw [show (c :: c2 :: rest) ++ b = c :: c2 :: (rest ++ b) from rfl, hasCrlf_cons2,
        Bool.or_eq_false_iff] at h
      rw [hasCrlf_cons2, Bool.or_eq_false_iff]
      exact ⟨h.1, ih b h.2⟩

/-- Helper: stripping trailing newlines preserves CRLF-freedom. -/
theorem hasCrlf_strip (l : List Char) (h : hasCrlf l = false) :
    hasCrlf (stripTrailingNl l) = false := by
  have hdec := stripTrailingNl_decomposition l
  rw [hdec] at h
  exact hasCrlf_append_left _ _ h

/-- Helper: the line-trim pass produces a string whose lines are all
trimmed. -/
theorem allTrimmed_trim_pass (s : List Char) :
    AllTrimmed (joinNl ((splitNl s).map trimEndWs)) := by
  unfold AllTrimmed
  have hne : (splitNl s).map trimEndWs ≠ [] := by
    intro hnil
    rw [List.map_eq_nil_iff] at hnil
    exact splitNl_ne_nil s hnil
  have hnomem : ∀ x ∈ (splitNl s).map trimEndWs, '\n' ∉ x := by
    intro x hx hmem
    rw [List.mem_map] at hx
    obtain ⟨y, hy, hxy⟩ := hx
    subst hxy
    exact splitNl_pieces s y hy (trimEndWs_subset y '\n' hmem)
  rw [splitNl_joinNl _ hne hnomem, List.map_map]
  exact List.map_congr_left (fun x _ => trimEndWs_idem x)

/-- Helper: on a string whose lines are all trimmed, the line-trim pass is
the identity. -/
theorem trim_pass_fix (t : List Char) (h : AllTrimmed t) :
    joinNl ((splitNl t).map trimEndWs) = t := by
  rw [h, joinNl_splitNl]

/-- Helper: the per-line trimmed invariant survives stripping trailing
newlines (by induction on the string length, peeling one trailing newline
per step). -/
theorem allTrimmed_strip_aux : ∀ n (x : List Char), x.length ≤ n → AllTrimmed x →
    AllTrimmed (stripTrailingNl x) := by
  intro n
  induction n with
  | zero =>
    intro x hlen h
    have : x = [] := List.length_eq_zero.mp (by omega)
    subst this
    exact h
  | succ n ih =>
    intro x hlen h
    by_cases hlast : ∀ c, x.getLast? = some c → c ≠ '\n'
    · rw [stripTrailingNl_of_getLast x hlast]
      exact h
    · push_neg at hlast
      obtain ⟨c, hc, hceq⟩ := hlast
      have hne : x ≠ [] := by
        intro hnil
        rw [hnil] at hc
        exact absurd hc (by simp)
      have hx : x.dropLast ++ ['\n'] = x := by
        have hgl : x.getLast hne = c := (List.getLast?_eq_getLast x hne ▸ hc :
          some (x.getLast hne) = some c) |> Option.some.inj
        rw [← hceq, ← hgl]
        exact List.dropLast_append_getLast hne
      have htrimmed : AllTrimmed x.dropLast := by
        unfold AllTrimmed at h ⊢
        rw [← hx, splitNl_append_newline, List.map_append] at h
        rw [show List.map trimEndWs [[]] = [[]] from rfl] at h
        exact List.append_cancel_right h
      have hlen' : x.dropLast.length ≤ n := by
        have hlx : x.dropLast.length + 1 = x.length := by
          have := congrArg List.length hx
          simpa using this
        omega
      rw [← hx, stripTrailingNl_concat_newline]
      exact ih x.dropLast hlen' htrimmed

/-- C7 (amended): the normalizer is idempotent for every configuration
with `trim_trailing_ws = true` (for either value of
`ignore_final_newline`); with `trim_trailing_ws = false` a lone `\r`
before a replaced CRLF can surface a fresh CRLF pair and break
idempotence. -/
theorem normalize_output_idempotent_of_trim (cfg : Normalize)
    (hcfg : cfg.trim_trailing_ws = true) (s : List Char) :
    normalize_output (normalize_output s cfg) cfg = normalize_output s cfg := by
  obtain ⟨tw, ig⟩ := cfg
  simp only at hcfg
  subst hcfg
  have hpieces : ∀ x ∈ (splitNl (replaceCrlf s)).map trimEndWs,
      '\n' ∉ x ∧ (∀ c, x.getLast? = some c → c ≠ '\r') := by
    intro x hx
    rw [List.mem_map] at hx
    obtain ⟨y, hy, hxy⟩ := hx
    subst hxy
    constructor
    · intro hmem
      exact splitNl_pieces _ y hy (trimEndWs_subset y '\n' hmem)
    · intro c hc heq
      subst heq
      have := trimEndWs_getLast_not_ws y '\r' hc
      simp [isWs] at this
  have hu_crlf : hasCrlf (joinNl ((splitNl (replaceCrlf s)).map trimEndWs)) = false :=
    hasCrlf_joinNl _ hpieces
  have hu_trim : AllTrimmed (joinNl ((splitNl (replaceCrlf s)).map trimEndWs)) :=
    allTrimmed_trim_pass (replaceCrlf s)
  cases ig with
  | false =>
    have hs1 : normalize_output s ⟨true, false⟩ =
        joinNl ((splitNl (replaceCrlf s)).map trimEndWs) := rfl
    rw [hs1]
    show joinNl ((splitNl (replaceCrlf
        (joinNl ((splitNl (replaceCrlf s)).map trimEndWs)))).map trimEndWs) = _
    rw [replaceCrlf_eq_self _ hu_crlf, trim_pass_fix _ hu_trim]
  | true =>
    have hs1 : normalize_output s ⟨true, true⟩ =
        stripTrailingNl (joinNl ((splitNl (replaceCrlf s)).map trimEndWs)) := rfl
    rw [hs1]
    have ht_crlf : hasCrlf (stripTrailingNl
        (joinNl ((splitNl (replaceCrlf s)).map trimEndWs))) = false :=
      hasCrlf_strip _ hu_crlf
    have ht_trim : AllTrimmed (stripTrailingNl
        (joinNl ((splitNl (replaceCrlf s)).map trimEndWs))) :=
      allTrimmed_strip_aux _ _ (le_refl _) hu_trim
    show stripTrailingNl (joinNl ((splitNl (replaceCrlf
        (stripTrailingNl (joinNl ((splitNl (replaceCrlf s)).map trimEndWs))))).map
        trimEndWs)) = _
    rw [replaceCrlf_eq_self _ ht_crlf, trim_pass_fix _ ht_trim, stripTrailingNl_idem]

/-- C7 witness: the amended idempotence at the default configuration on a
concrete string with trailing blanks, a CRLF and a final newline. -/
theorem normalize_output_idempotent_of_trim_witness :
    normalize_output (normalize_output "a \r\n\nb\n".toList ⟨true, true⟩) ⟨true, true⟩ =
      normalize_output "a \r\n\nb\n".toList ⟨true, true⟩ :=
  normalize_output_idempotent_of_trim ⟨true, true⟩ rfl ("a \r\n\nb\n".toList)

/-- C7 counterexample: with `trim_trailing_ws = false` the normalizer is
not idempotent — replacing the CRLF in `"\r\r\n"` exposes a fresh CRLF
pair that a second pass also replaces; the same happens with
`ignore_final_newline = true` on `"\r\r\na"`. -/
theorem normalize_output_not_idempotent :
    (normalize_output (normalize_output "\r\r\n".toList ⟨false, false⟩) ⟨false, false⟩ ≠
      normalize_output "\r\r\n".toList ⟨false, false⟩) ∧
    (normalize_output (normalize_output "\r\r\na".toList ⟨false, true⟩) ⟨false, true⟩ ≠
      normalize_output "\r\r\na".toList ⟨false, true⟩) :=
  ⟨by decide, by decide⟩

end Nado
